import Mathlib

/-!
# Ledger engine of `main.go`

A shallow embedding of the in-memory accounting ledger (`Store`, `User`,
`Recording`, `CalculateEarnings`, `creditRecording`, `Balance`, `Withdraw`) and of
`parsemoneytocents`, together with the properties established about them.

Modelling conventions.

* A `time.Time` is represented by its count of nanoseconds since the Unix
  epoch, an unbounded integer, so `After` is `>`; `Sub` saturates at the
  bounds of `time.Duration` as in the standard library, and `UnixNano`
  reduces the count to `int64` (`wrap64`): it is the count itself only for
  instants between 1677-09-21 and 2262-04-11 (`inRange`).
* `int64` balances and amounts are carried as `Int`; the ledger arithmetic
  (`+=`, `-=`) is read without wrap-around.  The arithmetic of
  `parsemoneytocents`, whose input can reach the bounds of `int64`, wraps
  (`wrap64`).
* `map[string]*User` is a function `String → Option User`.  A `*Recording`
  held in the `overlap` slice is represented by its index in the user's
  `Recordings` slice; every `Recording` is allocated for exactly one ledger
  position, so in-place mutation through the pointer is `List.set` at that index.
* The mutexes are not represented: operations are executed one at a time.
-/

namespace Liva

/-! ## Data model -/

/-- The constant `centsPerDollar` of `main.go`. -/
def centsPerDollar : Int := 100

/-- The struct `Recording`. -/
structure Recording where
  ID : String
  Start : Int
  End : Int
  IsFraud : Bool
  PaidAmount : Int
deriving DecidableEq, Repr

/-- The struct `User` (without its mutex). -/
structure User where
  Balance : Int
  Recordings : List Recording
deriving DecidableEq, Repr

/-- The struct `Store` (without its mutex). -/
structure Store where
  users : String → Option User

/-- The constructor `NewStore()`: the empty registry. -/
def NewStore : Store := ⟨fun _ => none⟩

/-- The ledger `&User{Recordings: make([]*Recording, 0)}` created on first reference. -/
def freshUser : User := ⟨0, []⟩

/-- The method `Store.GetUser`: look the user up, creating an empty ledger when absent. -/
def GetUser (s : Store) (userID : String) : User × Store :=
  match s.users userID with
  | some u => (u, s)
  | none => (freshUser, ⟨fun k => if k = userID then some freshUser else s.users k⟩)

/-- Overwrite the ledger stored under `userID` (mutation through the `*User` pointer). -/
def setUser (s : Store) (userID : String) (u : User) : Store :=
  ⟨fun k => if k = userID then some u else s.users k⟩

/-- The ledger a reader sees for `userID`: what `GetUser` would hand back. -/
def ledgerOf (s : Store) (userID : String) : User :=
  (s.users userID).getD freshUser

/-- The struct `creditResult`; the map is a partial function. -/
structure creditResult where
  fraudUsers : List String
  creditsCents : String → Option Int

/-! ## Time and earnings -/

/-- An instant, as nanoseconds since the Unix epoch. -/
abbrev Time := Int

/-- The constant `time.Minute`, in nanoseconds. -/
def Minute : Int := 60000000000

/-- Largest `time.Duration`. -/
def maxDuration : Int := 9223372036854775807

/-- Smallest `time.Duration`. -/
def minDuration : Int := -9223372036854775808

/-- The comparison `t.After(u)`. -/
def After (t u : Time) : Bool := decide (u < t)

/-- The duration `t.Sub(u)`: the difference, saturated to the range of `time.Duration`. -/
def Sub (t u : Time) : Int :=
  if maxDuration < t - u then maxDuration
  else if t - u < minDuration then minDuration
  else t - u

/-- The value an `int64` holds after an arithmetic operation whose exact result is `x`. -/
def wrap64 (x : Int) : Int :=
  (x + 9223372036854775808) % 18446744073709551616 - 9223372036854775808

/-- The timestamp `t.UnixNano()`: the nanosecond count computed in `int64`, which wraps
around for instants before 1677-09-21 or after 2262-04-11. -/
def UnixNano (t : Time) : Int := wrap64 t

/-- The instants whose nanosecond count fits `int64`: on them `UnixNano` is the count. -/
def inRange (t : Time) : Prop := -9223372036854775808 ≤ t ∧ t ≤ 9223372036854775807

instance inRange_decidable (t : Time) : Decidable (inRange t) :=
  inferInstanceAs (Decidable (-9223372036854775808 ≤ t ∧ t ≤ 9223372036854775807))

/-- The function `CalculateEarnings`: value and error. -/
def CalculateEarnings (start end_ : Time) : Int × Option String :=
  if !After end_ start then (0, some "invalid time range")
  else
    let minutes := (Sub end_ start).tdiv Minute
    ((minutes * centsPerDollar).tdiv 60, none)

/-! ## The per-user part of `creditRecording` -/

/-- The field read `u.Recordings[i].Start`. -/
def startAt (recs : List Recording) (i : Nat) : Int :=
  match recs[i]? with
  | some r => r.Start
  | none => 0

/-- The loop of `sort.Search`: binary search on `[i, j)`, one iteration per unit of fuel. -/
def searchLoop (f : Nat → Bool) : Nat → Nat → Nat → Nat
  | 0, i, _ => i
  | fuel + 1, i, j =>
    if i < j then
      if !f ((i + j) / 2) then searchLoop f fuel ((i + j) / 2 + 1) j
      else searchLoop f fuel i ((i + j) / 2)
    else i

/-- The call `sort.Search(n, f)`; `n` iterations are more than the loop can use
(`searchLoop_fuel`). -/
def sortSearch (n : Nat) (f : Nat → Bool) : Nat := searchLoop f n 0 n

/-- The backward scan `for i := idx - 1; i >= 0; i--`: the argument is `i + 1`. -/
def scanBack (recs : List Recording) (startunix : Int) : Nat → List Nat
  | 0 => []
  | i + 1 =>
    match recs[i]? with
    | some r => if r.End ≤ startunix then [] else i :: scanBack recs startunix i
    | none => []

/-- The forward scan `for i := idx; i < len(u.Recordings); i++`, one iteration per unit of fuel. -/
def scanFwd (recs : List Recording) (endunix : Int) : Nat → Nat → List Nat
  | 0, _ => []
  | fuel + 1, i =>
    match recs[i]? with
    | some r => if endunix ≤ r.Start then [] else i :: scanFwd recs endunix fuel (i + 1)
    | none => []

/-- The position `idx` computed by `sort.Search` in `creditRecording`. -/
def insertIndex (recs : List Recording) (startunix : Int) : Nat :=
  sortSearch recs.length (fun i => decide (startunix ≤ startAt recs i))

/-- The slice `overlap` (as indices into `u.Recordings`): backward scan, then forward scan. -/
def overlapOf (recs : List Recording) (startunix endunix : Int) : List Nat :=
  scanBack recs startunix (insertIndex recs startunix) ++
    scanFwd recs endunix (recs.length - insertIndex recs startunix) (insertIndex recs startunix)

/-- One iteration of `for _, oldRec := range overlap`, on the pair (balance, recordings). -/
def reverseOne (st : Int × List Recording) (i : Nat) : Int × List Recording :=
  match st.2[i]? with
  | some r =>
    if !r.IsFraud then
      (st.1 - r.PaidAmount, st.2.set i { r with IsFraud := true, PaidAmount := 0 })
    else st
  | none => st

/-- The three statements `append(nil)`, `copy`, `Recordings[idx] = newRecording`. -/
def insertAt (recs : List Recording) (idx : Nat) (r : Recording) : List Recording :=
  recs.take idx ++ r :: recs.drop idx

/-- Balance and recordings after the reversal loop, before the clamp. -/
def reverseAll (u : User) (startunix endunix : Int) : Int × List Recording :=
  (overlapOf u.Recordings startunix endunix).foldl reverseOne (u.Balance, u.Recordings)

/-- The body of the loop `for i, uid := range uniqueParticipants` for one user:
the new ledger and whether the user was flagged as fraudulent. -/
def creditUser (u : User) (recordingID : String) (startunix endunix baseEarned : Int) :
    User × Bool :=
  if (overlapOf u.Recordings startunix endunix).length = 0 then
    (⟨u.Balance + baseEarned,
      insertAt u.Recordings (insertIndex u.Recordings startunix)
        ⟨recordingID, startunix, endunix, false, baseEarned⟩⟩, false)
  else
    let st := reverseAll u startunix endunix
    (⟨if st.1 < 0 then 0 else st.1,
      insertAt st.2 (insertIndex u.Recordings startunix)
        ⟨recordingID, startunix, endunix, true, 0⟩⟩, true)

/-! ## `creditRecording` -/

/-- One iteration of the deduplication loop on (`seen`, `uniqueParticipants`). -/
def dedupStep (st : (String → Bool) × List String) (p : String) :
    (String → Bool) × List String :=
  if p ≠ "" ∧ st.1 p = false then (fun k => if k = p then true else st.1 k, st.2 ++ [p])
  else st

/-- The slice `uniqueParticipants` before sorting. -/
def uniqueParticipants (participant : List String) : List String :=
  (participant.foldl dedupStep (fun _ => false, [])).2

/-- Byte-wise lexicographic order of Go strings. -/
def strLE (a b : String) : Prop := a.data ≤ b.data

instance strLE_decidable : DecidableRel strLE :=
  fun a b => inferInstanceAs (Decidable (a.data ≤ b.data))

/-- The call `sort.Strings`: the identifiers in ascending order. -/
def sortStrings (l : List String) : List String := l.insertionSort strLE

/-- The locking loop: `GetUser` for each identifier, in order. -/
def getUsers (s : Store) (uids : List String) : Store :=
  uids.foldl (fun st uid => (GetUser st uid).2) s

/-- One iteration of the crediting loop on (store, result); `users[i]` is the ledger the
locking loop registered under `uid`. -/
def creditStep (recordingID : String) (startunix endunix baseEarned : Int)
    (st : Store × creditResult) (uid : String) : Store × creditResult :=
  let out := creditUser (ledgerOf st.1 uid) recordingID startunix endunix baseEarned
  if out.2 then
    (setUser st.1 uid out.1,
      ⟨st.2.fraudUsers ++ [uid], fun k => if k = uid then some 0 else st.2.creditsCents k⟩)
  else
    (setUser st.1 uid out.1,
      ⟨st.2.fraudUsers, fun k => if k = uid then some baseEarned else st.2.creditsCents k⟩)

/-- What a call of `creditRecording` leaves behind: result, error and store. -/
structure CreditOut where
  res : creditResult
  err : Option String
  store : Store

/-- The method `Store.creditRecording`. -/
def creditRecording (s : Store) (recordingID : String) (start end_ : Time)
    (participant : List String) : CreditOut :=
  if recordingID = "" then ⟨⟨[], fun _ => none⟩, some "invalid input", s⟩
  else if !After end_ start then ⟨⟨[], fun _ => none⟩, some "end must be after start", s⟩
  else
    match (CalculateEarnings start end_).2 with
    | some e => ⟨⟨[], fun _ => none⟩, some e, s⟩
    | none =>
      if (uniqueParticipants participant).length = 0 then
        ⟨⟨[], fun _ => none⟩, some "no valid participants", s⟩
      else
        let uids := sortStrings (uniqueParticipants participant)
        let st := uids.foldl
          (creditStep recordingID (UnixNano start) (UnixNano end_) (CalculateEarnings start end_).1)
          (getUsers s uids, ⟨[], fun _ => none⟩)
        ⟨st.2, none, st.1⟩

/-! ## `Balance` and `Withdraw` -/

/-- The method `Store.Balance`: the balance and the store (the user may have been created). -/
def Balance (s : Store) (userID : String) : Int × Store :=
  ((GetUser s userID).1.Balance, (GetUser s userID).2)

/-- What a call of `Withdraw` leaves behind: returned value, error and store. -/
structure WithdrawOut where
  value : Int
  err : Option String
  store : Store

/-- The method `Store.Withdraw`. -/
def Withdraw (s : Store) (userID : String) (amount : Int) : WithdrawOut :=
  if amount ≤ 0 then ⟨0, some "invalid amount", s⟩
  else
    let u := (GetUser s userID).1
    let s1 := (GetUser s userID).2
    if u.Balance < amount then ⟨u.Balance, some "insufficient balance", s1⟩
    else ⟨u.Balance - amount, none, setUser s1 userID { u with Balance := u.Balance - amount }⟩

/-! ## Reachable states -/

/-- Stores obtained from `NewStore()` by `creditRecording`, `Balance` and `Withdraw` calls. -/
inductive Reachable : Store → Prop
  | init : Reachable NewStore
  | credit (s : Store) (recordingID : String) (start end_ : Time) (participant : List String) :
      Reachable s → Reachable (creditRecording s recordingID start end_ participant).store
  | balance (s : Store) (userID : String) : Reachable s → Reachable (Balance s userID).2
  | withdraw (s : Store) (userID : String) (amount : Int) :
      Reachable s → Reachable (Withdraw s userID amount).store

/-- Stores obtained from `NewStore()` by `creditRecording` calls only. -/
inductive CreditReachable : Store → Prop
  | init : CreditReachable NewStore
  | credit (s : Store) (recordingID : String) (start end_ : Time) (participant : List String) :
      CreditReachable s →
      CreditReachable (creditRecording s recordingID start end_ participant).store

/-- Stores obtained from `NewStore()` by `creditRecording`, `Balance` and `Withdraw` calls
in which every credited `start` and `end` fits `int64` nanoseconds. -/
inductive RangeReachable : Store → Prop
  | init : RangeReachable NewStore
  | credit (s : Store) (recordingID : String) (start end_ : Time) (participant : List String) :
      inRange start → inRange end_ → RangeReachable s →
      RangeReachable (creditRecording s recordingID start end_ participant).store
  | balance (s : Store) (userID : String) :
      RangeReachable s → RangeReachable (Balance s userID).2
  | withdraw (s : Store) (userID : String) (amount : Int) :
      RangeReachable s → RangeReachable (Withdraw s userID amount).store

/-! ## Vocabulary of the properties -/

/-- The half-open intervals `[r.Start, r.End)` and `[startunix, endunix)` intersect. -/
def intersects (r : Recording) (startunix endunix : Int) : Prop :=
  r.Start < endunix ∧ startunix < r.End

instance intersects_decidable (r : Recording) (startunix endunix : Int) :
    Decidable (intersects r startunix endunix) :=
  inferInstanceAs (Decidable (r.Start < endunix ∧ startunix < r.End))

/-- A recording after its reversal: fraud, nothing paid. -/
def markFraud (r : Recording) : Recording := { r with IsFraud := true, PaidAmount := 0 }

/-- Reverse a recording when it is non-fraud and intersects `[startunix, endunix)`. -/
def reverseHit (startunix endunix : Int) (r : Recording) : Recording :=
  if r.IsFraud = false ∧ intersects r startunix endunix then markFraud r else r

/-- Sum of `PaidAmount` over the non-fraud recordings. -/
def liveSum (recs : List Recording) : Int :=
  ((recs.filter (fun r => !r.IsFraud)).map (fun r => r.PaidAmount)).sum

/-- Sum of `PaidAmount` over the non-fraud recordings intersecting `[startunix, endunix)`. -/
def hitSum (startunix endunix : Int) (recs : List Recording) : Int :=
  ((recs.filter (fun r => decide (r.IsFraud = false ∧ intersects r startunix endunix))).map
    (fun r => r.PaidAmount)).sum

/-- The immutable identity of a recording. -/
def identity (r : Recording) : String × Int × Int := (r.ID, r.Start, r.End)

/-- The invariant of a user's `Recordings` slice in a reachable store: sorted by `Start`,
nothing starts before the end of an earlier non-fraud recording, amounts are
non-negative and fraud recordings carry no amount. -/
structure LedgerOK (recs : List Recording) : Prop where
  sorted : recs.Pairwise (fun a b => a.Start ≤ b.Start)
  apart : recs.Pairwise (fun a b => a.IsFraud = false → a.End ≤ b.Start)
  paid_nonneg : ∀ r ∈ recs, 0 ≤ r.PaidAmount
  fraud_unpaid : ∀ r ∈ recs, r.IsFraud = true → r.PaidAmount = 0

/-- What holds in addition when every credited instant fits `int64` nanoseconds: every
stored interval is non-empty and every non-fraud recording is paid the earnings of its
own interval. -/
structure LedgerProper (recs : List Recording) : Prop where
  proper : ∀ r ∈ recs, r.Start < r.End
  earned : ∀ r ∈ recs, r.IsFraud = false →
    r.PaidAmount = (CalculateEarnings r.Start r.End).1

/-- The outcome of the loop body of `creditRecording` for user `k`, run on `k`'s ledger
in store `s`. -/
def userOut (s : Store) (recordingID : String) (start end_ : Time) (k : String) : User × Bool :=
  creditUser (ledgerOf s k) recordingID (UnixNano start) (UnixNano end_)
    (CalculateEarnings start end_).1

/-! ## Scenarios -/

/-- The store of `TestFraudOverlap` after `rec1` has been credited to `user1` and `user2`
(2023-01-01T10:00:00Z to 2023-02-04T11:01:00Z). -/
def afterRec1 : Store :=
  (creditRecording NewStore "rec1" 1672567200000000000 1675508460000000000
    ["user1", "user2"]).store

/-- A ledger holding a long recording and a short one nested in it: `user1` is credited
minutes 0 to 100, then minutes 10 to 20. -/
def nestedStore : Store :=
  (creditRecording
    (creditRecording NewStore "rec1" 0 (100 * Minute) ["user1"]).store
    "rec2" (10 * Minute) (20 * Minute) ["user1"]).store

/-- A store in which `user1` has been credited the first hour. -/
def hourStore : Store :=
  (creditRecording NewStore "rec1" 0 (60 * Minute) ["user1"]).store

/-! ## Money strings -/

/-- The digit value of a character in base 10, as in the loop of `strconv.ParseUint`. -/
def digitVal (c : Char) : Option Nat :=
  if '0' ≤ c ∧ c ≤ '9' then some (c.toNat - '0'.toNat) else none

/-- The digit loop of `strconv.ParseUint(s, 10, 64)`, accumulating without a bound:
`none` is a syntax error. -/
def parseDigits : List Char → Nat → Option Nat
  | [], n => some n
  | c :: cs, n =>
    match digitVal c with
    | some d => parseDigits cs (n * 10 + d)
    | none => none

/-- The unsigned part of `strconv.ParseInt`: an empty string is a syntax error. -/
def ParseUint (s : List Char) : Option Nat :=
  if s = [] then none else parseDigits s 0

/-- The call `strconv.ParseInt(s, 10, 64)`: `none` when it returns an error (syntax or
range), the value otherwise.  A leading `+` or `-` is picked off first; the magnitude
must stay below `2^63` (at most `2^63` for a negative number). -/
def ParseInt (s : List Char) : Option Int :=
  match s with
  | [] => none
  | c :: rest =>
    match ParseUint (if c = '+' ∨ c = '-' then rest else c :: rest) with
    | none => none
    | some un =>
      if c = '-' then
        if 9223372036854775808 < un then none else some (-(un : Int))
      else
        if 9223372036854775808 ≤ un then none else some (un : Int)

/-- The call `strings.Split(s, ".")` on the characters of `s`. -/
def splitDot : List Char → List (List Char)
  | [] => [[]]
  | c :: cs =>
    if c = '.' then [] :: splitDot cs
    else
      match splitDot cs with
      | [] => [[c]]
      | p :: ps => (c :: p) :: ps

/-- The two statements that bring the fraction to two characters: `fraction[:2]` when it
is longer than two, then a `0` appended when it has length one. -/
def normFraction (fraction : List Char) : List Char :=
  let cut := if 2 < fraction.length then fraction.take 2 else fraction
  if cut.length = 1 then cut ++ ['0'] else cut

/-- The function `parsemoneytocents`: value and error.  Strings are handled as lists of
characters; lengths are counted in characters, which for ASCII input are the byte counts
of the source, and a non-ASCII character among the first two of the fraction (or anywhere
in the integer part) makes `ParseInt` fail in either reading. -/
def parsemoneytocents (s : String) : Int × Option String :=
  if s = "" then (0, some "empty amount")
  else
    let parts := splitDot s.data
    if 2 < parts.length then (0, some "invalid amount format")
    else
      let dollarsPart := if parts.headD [] = [] then ['0'] else parts.headD []
      match ParseInt dollarsPart with
      | none => (0, some "invalid dollars")
      | some dollars =>
        if parts.length = 2 then
          let fraction := parts.getD 1 []
          if fraction = [] then (wrap64 (dollars * centsPerDollar), none)
          else
            match ParseInt (normFraction fraction) with
            | none => (0, some "invalid cents")
            | some c => (wrap64 (wrap64 (dollars * centsPerDollar) + c), none)
        else (wrap64 (wrap64 (dollars * centsPerDollar) + 0), none)

/-! ## Vocabulary of the later properties -/

/-- The floored per-minute earnings of a span of `d` nanoseconds:
`floor(floor(d / 1 minute) * 100 / 60)`. -/
def earningsOf (d : Int) : Int := d / Minute * 100 / 60

/-- One operation of the store: a `creditRecording`, `Balance` or `Withdraw` call. -/
inductive Step : Store → Store → Prop
  | credit (s : Store) (recordingID : String) (start end_ : Time) (participant : List String) :
      Step s (creditRecording s recordingID start end_ participant).store
  | balance (s : Store) (userID : String) : Step s (Balance s userID).2
  | withdraw (s : Store) (userID : String) (amount : Int) :
      Step s (Withdraw s userID amount).store

/-- How one stored recording may differ after an operation: not at all, or reversed from
non-fraud to fraud. -/
def evolves (r r' : Recording) : Prop :=
  r' = r ∨ (r.IsFraud = false ∧ r' = markFraud r)

/-- A decimal digit. -/
def isDigit (c : Char) : Prop := '0' ≤ c ∧ c ≤ '9'

instance isDigit_decidable (c : Char) : Decidable (isDigit c) :=
  inferInstanceAs (Decidable ('0' ≤ c ∧ c ≤ '9'))

/-- The number written by a string of decimal digits (0 for the empty string). -/
def natVal (l : List Char) : Nat :=
  l.foldl (fun n c => n * 10 + (c.toNat - '0'.toNat)) 0

/-- The cents written by a fractional part: the value of its first two digits, a single
digit being followed by a `0`. -/
def centsOf (f : List Char) : Nat :=
  natVal (if (f.take 2).length = 1 then f.take 2 ++ ['0'] else f.take 2)

/-- A part of a money string holds a character that is not a decimal digit, a `+` or `-`
in first position aside. -/
def badPart (l : List Char) : Prop :=
  ∃ i c, l[i]? = some c ∧ ¬ isDigit c ∧ ¬ (i = 0 ∧ (c = '+' ∨ c = '-'))

/-- The order in which `creditRecording` takes the per-user locks. -/
def lockOrder (participant : List String) : List String :=
  sortStrings (uniqueParticipants participant)

/-- The order in which the deferred function of `creditRecording` releases them. -/
def unlockOrder (participant : List String) : List String :=
  (lockOrder participant).reverse

/-- A store in which `user1` has been credited one recording spanning more than the
largest `time.Duration` (from 1811-07-23 to 2128-06-11, both within `int64` nanoseconds). -/
def longStore : Store :=
  (creditRecording NewStore "rec1" (-5000000000000000000) 5000000000000000000
    ["user1"]).store

/-- A store in which `user1` has been credited one recording from 2023-01-01T00:00:00Z
to 2300-01-01T00:00:00Z, whose end lies beyond the `int64` nanosecond range. -/
def wrapStore : Store :=
  (creditRecording NewStore "rec1" 1672531200000000000 10413792000000000000
    ["user1"]).store

/-- The store `wrapStore` preceded by a credit of December 2022 (`rec4`) to `user1`. -/
def wrapStore2 : Store :=
  (creditRecording
    (creditRecording NewStore "rec4" 1669852800000000000 1672531200000000000
      ["user1"]).store
    "rec1" 1672531200000000000 10413792000000000000 ["user1"]).store

/-- A store in which `user1` has been credited the first hour and then the second. -/
def twoHourStore : Store :=
  (creditRecording hourStore "rec2" (60 * Minute) (120 * Minute) ["user1"]).store

/-- A store in which `user1` has been credited minutes 100 to 200. -/
def laterStore : Store :=
  (creditRecording NewStore "rec0" (100 * Minute) (200 * Minute) ["user1"]).store

/-- The store `laterStore` after `user1` has also been credited minutes 0 to 50. -/
def laterStore1 : Store :=
  (creditRecording laterStore "rec1" 0 (50 * Minute) ["user1"]).store

/-- The store after `user1` was credited from 2270-01-01 to 2854-01-01 (UTC): both
instants lie beyond `int64` nanoseconds and the stored `End` falls below the stored
`Start`. -/
def farStore : Store :=
  (creditRecording NewStore "rec1" 9467107200000000000 27896400000000000000 ["user1"]).store
/-! ## Binary search -/

theorem searchLoop_bounds (f : Nat → Bool) :
    ∀ fuel i j, i ≤ j → i ≤ searchLoop f fuel i j ∧ searchLoop f fuel i j ≤ j
  | 0, i, j, h => by simp [searchLoop, h]
  | fuel + 1, i, j, h => by
    unfold searchLoop
    split_ifs with h1 h2
    · have := searchLoop_bounds f fuel ((i + j) / 2 + 1) j (by omega)
      omega
    · have := searchLoop_bounds f fuel i ((i + j) / 2) (by omega)
      omega
    · omega

/-- Fuel beyond the width of the interval is never used: the loop has already stopped. -/
theorem searchLoop_fuel (f : Nat → Bool) :
    ∀ fuel extra i j, j - i ≤ fuel →
      searchLoop f (fuel + extra) i j = searchLoop f fuel i j
  | 0, extra, i, j, h => by
    cases extra with
    | zero => rfl
    | succ e => simp [searchLoop]; omega
  | fuel + 1, extra, i, j, h => by
    have e : fuel + 1 + extra = (fuel + extra) + 1 := by omega
    rw [e]
    unfold searchLoop
    split_ifs with h1 h2
    · exact searchLoop_fuel f fuel extra _ _ (by omega)
    · exact searchLoop_fuel f fuel extra _ _ (by omega)
    · rfl

theorem searchLoop_spec (f : Nat → Bool) (n : Nat)
    (mono : ∀ a b, a ≤ b → b < n → f a = true → f b = true) :
    ∀ fuel i j, i ≤ j → j ≤ n → j - i ≤ fuel →
      (∀ k, k < i → f k = false) → (∀ k, j ≤ k → k < n → f k = true) →
      (∀ k, k < searchLoop f fuel i j → f k = false) ∧
        (∀ k, searchLoop f fuel i j ≤ k → k < n → f k = true)
  | 0, i, j, hij, _, hfuel, hlo, hhi => by
    have : i = j := by omega
    subst this
    simpa [searchLoop] using ⟨hlo, hhi⟩
  | fuel + 1, i, j, hij, hjn, hfuel, hlo, hhi => by
    unfold searchLoop
    split_ifs with h1 h2
    · apply searchLoop_spec f n mono fuel _ _ (by omega) hjn (by omega) _ hhi
      intro k hk
      by_contra hc
      have hk1 : f k = true := by simpa using hc
      have := mono k ((i + j) / 2) (by omega) (by omega) hk1
      simp [this] at h2
    · apply searchLoop_spec f n mono fuel _ _ (by omega) (by omega) (by omega) hlo
      intro k hk hkn
      have h3 : f ((i + j) / 2) = true := by simpa using h2
      exact mono _ k hk hkn h3
    · have : i = j := by omega
      subst this
      exact ⟨hlo, hhi⟩

/-! ## The overlap scan -/

theorem mem_scanBack (recs : List Recording) (s : Int) :
    ∀ n k, k ∈ scanBack recs s n ↔
      k < n ∧ ∀ j, k ≤ j → j < n → ∃ r, recs[j]? = some r ∧ s < r.End
  | 0, k => by simp [scanBack]
  | n + 1, k => by
    unfold scanBack
    cases hr : recs[n]? with
    | none =>
      simp only [List.not_mem_nil, false_iff, not_and]
      intro hk hall
      obtain ⟨r, h1, _⟩ := hall n (by omega) (by omega)
      simp [hr] at h1
    | some r =>
      by_cases hle : r.End ≤ s
      · simp only [hle, if_true, List.not_mem_nil, false_iff, not_and]
        intro hk hall
        obtain ⟨r', h1, h2⟩ := hall n (by omega) (by omega)
        rw [hr] at h1
        cases h1
        omega
      · simp only [hle, if_false, List.mem_cons, mem_scanBack recs s n k]
        constructor
        · rintro (rfl | ⟨h1, h2⟩)
          · refine ⟨by omega, fun j hj1 hj2 => ?_⟩
            have : j = k := by omega
            subst this
            exact ⟨r, hr, by omega⟩
          · refine ⟨by omega, fun j hj1 hj2 => ?_⟩
            by_cases hjn : j = n
            · subst hjn
              exact ⟨r, hr, by omega⟩
            · exact h2 j hj1 (by omega)
        · rintro ⟨h1, h2⟩
          by_cases hkn : k = n
          · exact Or.inl hkn
          · exact Or.inr ⟨by omega, fun j hj1 hj2 => h2 j hj1 (by omega)⟩

theorem mem_scanFwd (recs : List Recording) (e : Int) :
    ∀ fuel i k, k ∈ scanFwd recs e fuel i ↔
      i ≤ k ∧ k < i + fuel ∧ ∀ j, i ≤ j → j ≤ k → ∃ r, recs[j]? = some r ∧ r.Start < e
  | 0, i, k => by
    simp only [scanFwd, List.not_mem_nil, false_iff]
    omega
  | fuel + 1, i, k => by
    unfold scanFwd
    cases hr : recs[i]? with
    | none =>
      simp only [List.not_mem_nil, false_iff, not_and]
      intro hk _ hall
      obtain ⟨r, h1, _⟩ := hall i (by omega) hk
      simp [hr] at h1
    | some r =>
      by_cases hle : e ≤ r.Start
      · simp only [hle, if_true, List.not_mem_nil, false_iff, not_and]
        intro hk _ hall
        obtain ⟨r', h1, h2⟩ := hall i (by omega) hk
        rw [hr] at h1
        cases h1
        omega
      · simp only [hle, if_false, List.mem_cons, mem_scanFwd recs e fuel (i + 1) k]
        constructor
        · rintro (rfl | ⟨h1, h2, h3⟩)
          · refine ⟨by omega, by omega, fun j hj1 hj2 => ?_⟩
            have : j = k := by omega
            subst this
            exact ⟨r, hr, by omega⟩
          · refine ⟨by omega, by omega, fun j hj1 hj2 => ?_⟩
            by_cases hji : j = i
            · subst hji
              exact ⟨r, hr, by omega⟩
            · exact h3 j (by omega) hj2
        · rintro ⟨h1, h2, h3⟩
          by_cases hki : k = i
          · exact Or.inl hki
          · exact Or.inr ⟨by omega, by omega, fun j hj1 hj2 => h3 j (by omega) hj2⟩

/-- Fuel beyond the remaining length is never used by the forward scan. -/
theorem scanFwd_fuel (recs : List Recording) (e : Int) :
    ∀ fuel extra i, recs.length - i ≤ fuel →
      scanFwd recs e (fuel + extra) i = scanFwd recs e fuel i
  | 0, extra, i, h => by
    have hnone : recs[i]? = none := List.getElem?_eq_none (by omega)
    cases extra with
    | zero => rfl
    | succ n =>
      have e1 : 0 + (n + 1) = n + 1 := by omega
      rw [e1]
      simp [scanFwd, hnone]
  | fuel + 1, extra, i, h => by
    have e1 : fuel + 1 + extra = (fuel + extra) + 1 := by omega
    rw [e1]
    unfold scanFwd
    cases recs[i]? with
    | none => rfl
    | some r =>
      simp only
      rw [scanFwd_fuel recs e fuel extra (i + 1) (by omega)]

theorem pairwise_getElem? {R : Recording → Recording → Prop} {l : List Recording}
    (h : l.Pairwise R) {i j : Nat} {a b : Recording} (hij : i < j)
    (ha : l[i]? = some a) (hb : l[j]? = some b) : R a b := by
  obtain ⟨hi, rfl⟩ := List.getElem?_eq_some.1 ha
  obtain ⟨hj, rfl⟩ := List.getElem?_eq_some.1 hb
  exact List.pairwise_iff_getElem.1 h i j hi hj hij

theorem insertIndex_le (recs : List Recording) (s : Int) :
    insertIndex recs s ≤ recs.length :=
  (searchLoop_bounds _ _ 0 _ (Nat.zero_le _)).2

theorem startAt_eq {recs : List Recording} {i : Nat} {r : Recording}
    (h : recs[i]? = some r) : startAt recs i = r.Start := by
  simp [startAt, h]

/-- On a slice sorted by `Start`, `sort.Search` returns the first position whose
`Start` is at least `startunix`. -/
theorem insertIndex_spec (recs : List Recording) (s : Int)
    (hs : recs.Pairwise (fun a b => a.Start ≤ b.Start)) :
    (∀ k r, k < insertIndex recs s → recs[k]? = some r → r.Start < s) ∧
      (∀ k r, insertIndex recs s ≤ k → recs[k]? = some r → s ≤ r.Start) := by
  have mono : ∀ a b, a ≤ b → b < recs.length →
      (fun i => decide (s ≤ startAt recs i)) a = true →
      (fun i => decide (s ≤ startAt recs i)) b = true := by
    intro a b hab hb ha
    simp only [decide_eq_true_eq] at ha ⊢
    have hb' := List.getElem?_eq_getElem hb
    have ha' := List.getElem?_eq_getElem (show a < recs.length by omega)
    rw [startAt_eq ha'] at ha
    rw [startAt_eq hb']
    rcases Nat.lt_or_ge a b with h | h
    · have := pairwise_getElem? hs h ha' hb'
      omega
    · have : a = b := by omega
      subst this
      exact ha
  have key := searchLoop_spec _ recs.length mono recs.length 0 recs.length
    (Nat.zero_le _) (le_refl _) (by omega) (by intro k hk; omega) (by intro k h1 h2; omega)
  constructor
  · intro k r hk hr
    have := key.1 k hk
    simp only [decide_eq_false_iff_not, startAt_eq hr] at this
    omega
  · intro k r hk hr
    have hlen := (List.getElem?_eq_some.1 hr).1
    have := key.2 k hk hlen
    simpa only [decide_eq_true_eq, startAt_eq hr] using this

/-- Whatever the scan collects lies in the ledger and intersects the credited interval. -/
theorem overlapOf_sound {recs : List Recording} {s e : Int} (hok : LedgerOK recs)
    (hpr : ∀ r ∈ recs, r.Start < r.End)
    (hse : s < e) {k : Nat} (hk : k ∈ overlapOf recs s e) :
    ∃ r, recs[k]? = some r ∧ intersects r s e := by
  have hidx := insertIndex_spec recs s hok.sorted
  rcases List.mem_append.1 hk with h | h
  · obtain ⟨h1, h2⟩ := (mem_scanBack recs s _ k).1 h
    obtain ⟨r, hr, hend⟩ := h2 k (le_refl _) h1
    have := hidx.1 k r h1 hr
    exact ⟨r, hr, by omega, hend⟩
  · obtain ⟨h1, _, h3⟩ := (mem_scanFwd recs e _ _ k).1 h
    obtain ⟨r, hr, hst⟩ := h3 k h1 (le_refl _)
    have := hidx.2 k r h1 hr
    have hp := hpr r (List.mem_iff_getElem?.2 ⟨k, hr⟩)
    exact ⟨r, hr, hst, by omega⟩

/-- The forward scan collects every recording at or after `idx` that starts before
`endunix`. -/
theorem overlapOf_complete_fwd {recs : List Recording} {s e : Int}
    (hs : recs.Pairwise (fun a b => a.Start ≤ b.Start))
    {k : Nat} {r : Recording} (hr : recs[k]? = some r) (hge : insertIndex recs s ≤ k)
    (hst : r.Start < e) : k ∈ overlapOf recs s e := by
  have hlen := (List.getElem?_eq_some.1 hr).1
  have hile := insertIndex_le recs s
  refine List.mem_append.2
    (Or.inr ((mem_scanFwd recs e _ _ k).2 ⟨hge, by omega, fun j hj1 hj2 => ?_⟩))
  have hjlen : j < recs.length := by omega
  refine ⟨recs[j], List.getElem?_eq_getElem hjlen, ?_⟩
  rcases Nat.lt_or_ge j k with hjk | hjk
  · have h1 := pairwise_getElem? hs hjk (List.getElem?_eq_getElem hjlen) hr
    omega
  · have : j = k := by omega
    subst this
    have : recs[j] = r := by
      have := List.getElem?_eq_getElem hjlen
      rw [hr] at this
      exact (Option.some.inj this).symm
    rw [this]
    exact hst

/-- The backward scan collects every non-fraud recording before `idx` that ends after
`startunix`: nothing between it and `idx` can stop the scan. -/
theorem overlapOf_complete_back {recs : List Recording} {s e : Int} (hok : LedgerOK recs)
    {k : Nat} {r : Recording} (hr : recs[k]? = some r) (hlive : r.IsFraud = false)
    (hlt : k < insertIndex recs s) (hend : s < r.End) : k ∈ overlapOf recs s e := by
  have hidx := insertIndex_spec recs s hok.sorted
  refine List.mem_append.2 (Or.inl ((mem_scanBack recs s _ k).2 ⟨hlt, fun j hj1 hj2 => ?_⟩))
  have hile := insertIndex_le recs s
  have hjlen : j < recs.length := by omega
  refine ⟨recs[j], List.getElem?_eq_getElem hjlen, ?_⟩
  rcases Nat.lt_or_ge k j with hkj | hkj
  · have h1 := pairwise_getElem? hok.apart hkj hr (List.getElem?_eq_getElem hjlen) hlive
    have h2 := hidx.1 j _ hj2 (List.getElem?_eq_getElem hjlen)
    omega
  · have : j = k := by omega
    subst this
    have : recs[j] = r := by
      have := List.getElem?_eq_getElem hjlen
      rw [hr] at this
      exact (Option.some.inj this).symm
    rw [this]
    exact hend

/-- A non-fraud recording that intersects the credited interval is always collected. -/
theorem overlapOf_complete_live {recs : List Recording} {s e : Int} (hok : LedgerOK recs)
    {k : Nat} {r : Recording} (hr : recs[k]? = some r) (hlive : r.IsFraud = false)
    (hint : intersects r s e) : k ∈ overlapOf recs s e := by
  rcases Nat.lt_or_ge k (insertIndex recs s) with hlt | hge
  · exact overlapOf_complete_back hok hr hlive hlt hint.2
  · exact overlapOf_complete_fwd hok.sorted hr hge hint.1

/-! ## The reversal loop -/

theorem liveSum_cons (r : Recording) (recs : List Recording) :
    liveSum (r :: recs) = (if r.IsFraud = false then r.PaidAmount else 0) + liveSum recs := by
  unfold liveSum
  cases h : r.IsFraud <;> simp [List.filter, h]

theorem liveSum_append (l₁ l₂ : List Recording) :
    liveSum (l₁ ++ l₂) = liveSum l₁ + liveSum l₂ := by
  simp [liveSum]

theorem liveSum_set_markFraud :
    ∀ (recs : List Recording) (i : Nat) (r : Recording), recs[i]? = some r →
      r.IsFraud = false → liveSum (recs.set i (markFraud r)) = liveSum recs - r.PaidAmount
  | [], i, r, h, _ => by simp at h
  | a :: recs, 0, r, h, hl => by
    simp only [List.getElem?_cons_zero, Option.some.injEq] at h
    subst h
    simp [List.set, liveSum_cons, hl, markFraud]
  | a :: recs, i + 1, r, h, hl => by
    simp only [List.getElem?_cons_succ] at h
    simp only [List.set, liveSum_cons, liveSum_set_markFraud recs i r h hl]
    ring

/-- The reversal loop keeps `balance - liveSum recordings` constant. -/
theorem foldl_reverseOne_balance :
    ∀ (is : List Nat) (bal : Int) (recs : List Recording),
      (is.foldl reverseOne (bal, recs)).1 - liveSum (is.foldl reverseOne (bal, recs)).2 =
        bal - liveSum recs
  | [], bal, recs => rfl
  | i :: is, bal, recs => by
    simp only [List.foldl_cons]
    cases hr : recs[i]? with
    | none =>
      have : reverseOne (bal, recs) i = (bal, recs) := by simp [reverseOne, hr]
      rw [this]
      exact foldl_reverseOne_balance is bal recs
    | some r =>
      cases hf : r.IsFraud with
      | true =>
        have : reverseOne (bal, recs) i = (bal, recs) := by simp [reverseOne, hr, hf]
        rw [this]
        exact foldl_reverseOne_balance is bal recs
      | false =>
        have : reverseOne (bal, recs) i = (bal - r.PaidAmount, recs.set i (markFraud r)) := by
          simp [reverseOne, hr, hf, markFraud]
        rw [this, foldl_reverseOne_balance is _ _, liveSum_set_markFraud recs i r hr hf]
        ring

/-- Entry `k` after the reversal loop: reversed when `k` was collected and the entry
was non-fraud, untouched otherwise. -/
theorem foldl_reverseOne_getElem? :
    ∀ (is : List Nat) (bal : Int) (recs : List Recording) (k : Nat),
      (is.foldl reverseOne (bal, recs)).2[k]? =
        (recs[k]?).map (fun r => if k ∈ is ∧ r.IsFraud = false then markFraud r else r)
  | [], bal, recs, k => by simp
  | i :: is, bal, recs, k => by
    simp only [List.foldl_cons]
    cases hr : recs[i]? with
    | none =>
      have h0 : reverseOne (bal, recs) i = (bal, recs) := by simp [reverseOne, hr]
      rw [h0, foldl_reverseOne_getElem? is bal recs k]
      cases hk : recs[k]? with
      | none => rfl
      | some a =>
        have : k ≠ i := by
          rintro rfl
          rw [hr] at hk
          cases hk
        simp [this]
    | some r =>
      cases hf : r.IsFraud with
      | true =>
        have h0 : reverseOne (bal, recs) i = (bal, recs) := by simp [reverseOne, hr, hf]
        rw [h0, foldl_reverseOne_getElem? is bal recs k]
        cases hk : recs[k]? with
        | none => rfl
        | some a =>
          by_cases hki : k = i
          · subst hki
            rw [hr] at hk
            cases hk
            simp [hf]
          · simp [hki]
      | false =>
        have h0 : reverseOne (bal, recs) i =
            (bal - r.PaidAmount, recs.set i (markFraud r)) := by
          simp [reverseOne, hr, hf, markFraud]
        have hlen := (List.getElem?_eq_some.1 hr).1
        rw [h0, foldl_reverseOne_getElem? is _ _ k, List.getElem?_set]
        by_cases hki : i = k
        · subst hki
          simp [hlen, hr, hf, markFraud]
        · have hki' : k ≠ i := fun h => hki h.symm
          simp [hki, hki']

/-! ## One user's ledger under a credit -/

theorem hitSum_cons (s e : Int) (r : Recording) (recs : List Recording) :
    hitSum s e (r :: recs) =
      (if r.IsFraud = false ∧ intersects r s e then r.PaidAmount else 0) + hitSum s e recs := by
  unfold hitSum
  by_cases h : r.IsFraud = false ∧ intersects r s e <;> simp [List.filter, h]

theorem liveSum_map_reverseHit (s e : Int) :
    ∀ recs : List Recording,
      liveSum (recs.map (reverseHit s e)) = liveSum recs - hitSum s e recs
  | [] => by simp [liveSum, hitSum]
  | r :: recs => by
    rw [List.map_cons, liveSum_cons, liveSum_cons, hitSum_cons, liveSum_map_reverseHit s e recs]
    by_cases h : r.IsFraud = false ∧ intersects r s e
    · simp [reverseHit, h, markFraud]
    · simp only [reverseHit, h, if_false]
      ring

theorem reverseAll_recs {u : User} {s e : Int} (hok : LedgerOK u.Recordings)
    (hpr : ∀ r ∈ u.Recordings, r.Start < r.End) (hse : s < e) :
    (reverseAll u s e).2 = u.Recordings.map (reverseHit s e) := by
  apply List.ext_getElem?
  intro k
  rw [reverseAll, foldl_reverseOne_getElem?, List.getElem?_map]
  cases hr : u.Recordings[k]? with
  | none => rfl
  | some r =>
    simp only [Option.map_some', Option.some.injEq, reverseHit]
    by_cases hl : r.IsFraud = false
    · by_cases hi : intersects r s e
      · simp [hl, hi, overlapOf_complete_live hok hr hl hi]
      · have : k ∉ overlapOf u.Recordings s e := by
          intro hk
          obtain ⟨r', hr', hi'⟩ := overlapOf_sound hok hpr hse hk
          rw [hr] at hr'
          cases hr'
          exact hi hi'
        simp [this, hi]
    · simp [hl]

theorem reverseAll_balance {u : User} {s e : Int} (hok : LedgerOK u.Recordings)
    (hpr : ∀ r ∈ u.Recordings, r.Start < r.End) (hse : s < e) :
    (reverseAll u s e).1 = u.Balance - hitSum s e u.Recordings := by
  have h1 := foldl_reverseOne_balance (overlapOf u.Recordings s e) u.Balance u.Recordings
  have h2 := reverseAll_recs hok hpr hse
  unfold reverseAll at h2 ⊢
  rw [h2, liveSum_map_reverseHit] at h1
  linarith

theorem overlapOf_eq_nil {recs : List Recording} {s e : Int} (hok : LedgerOK recs)
    (hpr : ∀ r ∈ recs, r.Start < r.End) (hse : s < e) (hno : ∀ r ∈ recs, ¬ intersects r s e) : overlapOf recs s e = [] := by
  apply List.eq_nil_iff_forall_not_mem.2
  intro k hk
  obtain ⟨r, hr, hi⟩ := overlapOf_sound hok hpr hse hk
  exact hno r (List.mem_iff_getElem?.2 ⟨k, hr⟩) hi

theorem overlapOf_ne_nil {recs : List Recording} {s e : Int} (hok : LedgerOK recs)
    {r : Recording} (hr : r ∈ recs) (hl : r.IsFraud = false) (hi : intersects r s e) :
    overlapOf recs s e ≠ [] := by
  obtain ⟨k, hk⟩ := List.mem_iff_getElem?.1 hr
  exact List.ne_nil_of_mem (overlapOf_complete_live hok hk hl hi)

theorem creditUser_clean {u : User} {s e : Int} (id : String) (b : Int)
    (h : overlapOf u.Recordings s e = []) :
    creditUser u id s e b =
      (⟨u.Balance + b, insertAt u.Recordings (insertIndex u.Recordings s) ⟨id, s, e, false, b⟩⟩,
        false) := by
  simp [creditUser, h]

theorem creditUser_fraud {u : User} {s e : Int} (id : String) (b : Int)
    (hok : LedgerOK u.Recordings) (hpr : ∀ r ∈ u.Recordings, r.Start < r.End) (hse : s < e)
    (h : overlapOf u.Recordings s e ≠ []) :
    creditUser u id s e b =
      (⟨max 0 (u.Balance - hitSum s e u.Recordings),
        insertAt (u.Recordings.map (reverseHit s e)) (insertIndex u.Recordings s)
          ⟨id, s, e, true, 0⟩⟩, true) := by
  have hlen : (overlapOf u.Recordings s e).length ≠ 0 := by
    simpa [List.length_eq_zero] using h
  simp only [creditUser, hlen, if_false, reverseAll_recs hok hpr hse,
    reverseAll_balance hok hpr hse]
  congr 2
  by_cases hneg : u.Balance - hitSum s e u.Recordings < 0
  · simp [hneg, max_eq_left (le_of_lt hneg)]
  · simp [hneg, max_eq_right (not_lt.1 hneg)]

theorem reverseAll_of_nil {u : User} {s e : Int} (h : overlapOf u.Recordings s e = []) :
    reverseAll u s e = (u.Balance, u.Recordings) := by
  simp [reverseAll, h]

/-- The flag returned by the loop body: the scan found something. -/
theorem creditUser_flag (u : User) (id : String) (s e b : Int) :
    (creditUser u id s e b).2 = true ↔ overlapOf u.Recordings s e ≠ [] := by
  unfold creditUser
  by_cases h : overlapOf u.Recordings s e = []
  · simp [h]
  · have hlen : (overlapOf u.Recordings s e).length ≠ 0 := by
      simpa [List.length_eq_zero] using h
    simp [h, hlen]

/-- The recordings after the loop body, for any ledger: the recordings left by the
reversal loop with the new recording placed at the position found by the search. -/
theorem creditUser_recs (u : User) (id : String) (s e b : Int) :
    (creditUser u id s e b).1.Recordings =
      insertAt (reverseAll u s e).2 (insertIndex u.Recordings s)
        ⟨id, s, e, (creditUser u id s e b).2, if (creditUser u id s e b).2 then 0 else b⟩ := by
  by_cases h : overlapOf u.Recordings s e = []
  · rw [creditUser_clean id b h, reverseAll_of_nil h]
    simp
  · have hlen : (overlapOf u.Recordings s e).length ≠ 0 := by
      simpa [List.length_eq_zero] using h
    simp [creditUser, hlen]

/-- The balance after the loop body, for any ledger. -/
theorem creditUser_balance (u : User) (id : String) (s e b : Int) :
    (creditUser u id s e b).1.Balance =
      if overlapOf u.Recordings s e = [] then u.Balance + b
      else max 0 (reverseAll u s e).1 := by
  by_cases h : overlapOf u.Recordings s e = []
  · rw [creditUser_clean id b h, if_pos h]
  · have hlen : (overlapOf u.Recordings s e).length ≠ 0 := by
      simpa [List.length_eq_zero] using h
    simp only [creditUser, hlen, if_false, h]
    by_cases hneg : (reverseAll u s e).1 < 0
    · simp [hneg, max_eq_left (le_of_lt hneg)]
    · simp [hneg, max_eq_right (not_lt.1 hneg)]

/-- Entry `k` after the reversal loop of a credit. -/
theorem reverseAll_getElem? (u : User) (s e : Int) (k : Nat) :
    (reverseAll u s e).2[k]? =
      (u.Recordings[k]?).map
        (fun r => if k ∈ overlapOf u.Recordings s e ∧ r.IsFraud = false then markFraud r
          else r) := by
  rw [reverseAll, foldl_reverseOne_getElem?]

theorem reverseAll_length (u : User) (s e : Int) :
    (reverseAll u s e).2.length = u.Recordings.length := by
  have h := congrArg List.length (show (reverseAll u s e).2.map (fun _ => ()) =
    u.Recordings.map (fun _ => ()) from by
      apply List.ext_getElem?
      intro k
      rw [List.getElem?_map, List.getElem?_map, reverseAll_getElem?]
      cases u.Recordings[k]? <;> rfl)
  simpa using h

/-- Position by position, the reversal loop leaves a recording as it was or turns it from
non-fraud to fraud. -/
theorem reverseAll_evolves (u : User) (s e : Int) :
    List.Forall₂ evolves u.Recordings (reverseAll u s e).2 := by
  rw [List.forall₂_iff_get]
  refine ⟨(reverseAll_length u s e).symm, fun i h1 h2 => ?_⟩
  have h := reverseAll_getElem? u s e i
  rw [List.getElem?_eq_getElem h1, List.getElem?_eq_getElem h2] at h
  simp only [Option.map_some', Option.some.injEq] at h
  simp only [List.get_eq_getElem]
  rw [h]
  unfold evolves
  split_ifs with hc
  · exact Or.inr ⟨hc.2, rfl⟩
  · exact Or.inl rfl

/-! ## Preservation of the ledger invariant -/

theorem mem_take_getElem? {recs : List Recording} {n : Nat} {a : Recording}
    (h : a ∈ recs.take n) : ∃ k, k < n ∧ recs[k]? = some a := by
  obtain ⟨k, hk⟩ := List.mem_iff_getElem?.1 h
  rw [List.getElem?_take] at hk
  by_cases hkn : k < n
  · exact ⟨k, hkn, by simpa [hkn] using hk⟩
  · simp [hkn] at hk

theorem mem_drop_getElem? {recs : List Recording} {n : Nat} {b : Recording}
    (h : b ∈ recs.drop n) : ∃ k, n ≤ k ∧ recs[k]? = some b := by
  obtain ⟨k, hk⟩ := List.mem_iff_getElem?.1 h
  rw [List.getElem?_drop] at hk
  exact ⟨n + k, Nat.le_add_right _ _, hk⟩

theorem pairwise_insertAt {R : Recording → Recording → Prop} {recs : List Recording}
    {idx : Nat} {x : Recording} (h : recs.Pairwise R)
    (hl : ∀ a ∈ recs.take idx, R a x) (hr : ∀ b ∈ recs.drop idx, R x b) :
    (insertAt recs idx x).Pairwise R := by
  have h' : (recs.take idx ++ recs.drop idx).Pairwise R := by
    rwa [List.take_append_drop]
  obtain ⟨h1, h2, h3⟩ := List.pairwise_append.1 h'
  unfold insertAt
  refine List.pairwise_append.2 ⟨h1, List.pairwise_cons.2 ⟨hr, h2⟩, ?_⟩
  intro a ha b hb
  rcases List.mem_cons.1 hb with rfl | hb
  · exact hl a ha
  · exact h3 a ha b hb

theorem mem_insertAt {recs : List Recording} {idx : Nat} {x r : Recording}
    (h : r ∈ insertAt recs idx x) : r = x ∨ r ∈ recs := by
  unfold insertAt at h
  rcases List.mem_append.1 h with h | h
  · exact Or.inr (List.mem_of_mem_take h)
  · rcases List.mem_cons.1 h with h | h
    · exact Or.inl h
    · exact Or.inr (List.mem_of_mem_drop h)

@[simp] theorem reverseHit_Start (s e : Int) (r : Recording) :
    (reverseHit s e r).Start = r.Start := by
  unfold reverseHit markFraud
  split_ifs <;> rfl

@[simp] theorem reverseHit_End (s e : Int) (r : Recording) :
    (reverseHit s e r).End = r.End := by
  unfold reverseHit markFraud
  split_ifs <;> rfl

@[simp] theorem reverseHit_ID (s e : Int) (r : Recording) :
    (reverseHit s e r).ID = r.ID := by
  unfold reverseHit markFraud
  split_ifs <;> rfl

theorem reverseHit_live {s e : Int} {r : Recording}
    (h : (reverseHit s e r).IsFraud = false) :
    r.IsFraud = false ∧ ¬ intersects r s e ∧ reverseHit s e r = r := by
  unfold reverseHit at h ⊢
  by_cases hc : r.IsFraud = false ∧ intersects r s e
  · simp [hc, markFraud] at h
  · simp only [hc, if_false] at h ⊢
    exact ⟨h, fun hi => hc ⟨h, hi⟩, trivial⟩

theorem reverseHit_paid (s e : Int) (r : Recording) :
    (reverseHit s e r).PaidAmount = 0 ∨ reverseHit s e r = r := by
  unfold reverseHit
  split_ifs
  · exact Or.inl rfl
  · exact Or.inr rfl

theorem LedgerOK_nil : LedgerOK [] :=
  ⟨List.Pairwise.nil, List.Pairwise.nil, by simp, by simp⟩

theorem LedgerOK_map_reverseHit {recs : List Recording} (s e : Int) (hok : LedgerOK recs) :
    LedgerOK (recs.map (reverseHit s e)) := by
  refine ⟨?_, ?_, ?_, ?_⟩
  · rw [List.pairwise_map]
    exact hok.sorted.imp (by intro a b h; simpa using h)
  · rw [List.pairwise_map]
    refine hok.apart.imp ?_
    intro a b h hl
    simpa using h (reverseHit_live hl).1
  · intro r hr
    obtain ⟨a, ha, rfl⟩ := List.mem_map.1 hr
    rcases reverseHit_paid s e a with h | h
    · rw [h]
    · rw [h]
      exact hok.paid_nonneg a ha
  · intro r hr hf
    obtain ⟨a, ha, rfl⟩ := List.mem_map.1 hr
    rcases reverseHit_paid s e a with h | h
    · exact h
    · rw [h] at hf ⊢
      exact hok.fraud_unpaid a ha hf

/-- What entry `k` of the ledger is after the reversal loop, in terms of entry `k`
before it. -/
theorem reverseAll_entry {u : User} {s e : Int} {k : Nat} {a : Recording}
    (h : (reverseAll u s e).2[k]? = some a) :
    ∃ r, u.Recordings[k]? = some r ∧
      a = (if k ∈ overlapOf u.Recordings s e ∧ r.IsFraud = false then markFraud r else r) := by
  rw [reverseAll_getElem?] at h
  cases hr : u.Recordings[k]? with
  | none => simp [hr] at h
  | some r =>
    simp only [hr, Option.map_some', Option.some.injEq] at h
    exact ⟨r, rfl, h.symm⟩

theorem ite_markFraud_Start (c : Prop) [Decidable c] (r : Recording) :
    (if c then markFraud r else r).Start = r.Start := by
  split_ifs <;> rfl

theorem evolves_Start {r r' : Recording} (h : evolves r r') : r'.Start = r.Start := by
  rcases h with h | ⟨_, h⟩ <;> rw [h]
  rfl

theorem evolves_End {r r' : Recording} (h : evolves r r') : r'.End = r.End := by
  rcases h with h | ⟨_, h⟩ <;> rw [h]
  rfl

theorem evolves_live {r r' : Recording} (h : evolves r r') (hl : r'.IsFraud = false) :
    r' = r := by
  rcases h with h | ⟨_, h⟩
  · exact h
  · rw [h] at hl
    cases hl

theorem forall₂_mem_right {Q : Recording → Recording → Prop} :
    ∀ {l l' : List Recording}, List.Forall₂ Q l l' → ∀ b' ∈ l', ∃ b ∈ l, Q b b'
  | _, _, List.Forall₂.nil, b', hb => absurd hb (List.not_mem_nil b')
  | _, _, List.Forall₂.cons hq hrest, b', hb => by
    rcases List.mem_cons.1 hb with rfl | hb
    · exact ⟨_, List.mem_cons_self _ _, hq⟩
    · obtain ⟨b, hbl, hqb⟩ := forall₂_mem_right hrest b' hb
      exact ⟨b, List.mem_cons_of_mem _ hbl, hqb⟩

theorem pairwise_of_forall₂ {Q R R' : Recording → Recording → Prop}
    (imp : ∀ a a' b b', Q a a' → Q b b' → R a b → R' a' b') :
    ∀ {l l' : List Recording}, List.Forall₂ Q l l' → l.Pairwise R → l'.Pairwise R'
  | _, _, List.Forall₂.nil, _ => List.Pairwise.nil
  | _, _, List.Forall₂.cons hq hrest, hp => by
    obtain ⟨h1, h2⟩ := List.pairwise_cons.1 hp
    refine List.pairwise_cons.2 ⟨?_, pairwise_of_forall₂ imp hrest h2⟩
    intro b' hb'
    obtain ⟨b, hb, hqb⟩ := forall₂_mem_right hrest b' hb'
    exact imp _ _ _ _ hq hqb (h1 b hb)

/-- The reversal loop keeps the invariant, whatever it reverses. -/
theorem LedgerOK_reverseAll {u : User} (s e : Int) (hok : LedgerOK u.Recordings) :
    LedgerOK (reverseAll u s e).2 := by
  have hev := reverseAll_evolves u s e
  refine ⟨?_, ?_, ?_, ?_⟩
  · refine pairwise_of_forall₂ ?_ hev hok.sorted
    intro a a' b b' ha hb h
    rw [evolves_Start ha, evolves_Start hb]
    exact h
  · refine pairwise_of_forall₂ ?_ hev hok.apart
    intro a a' b b' ha hb h hl
    have := evolves_live ha hl
    subst this
    rw [evolves_Start hb]
    exact h hl
  · intro r' hr'
    obtain ⟨r, hr, h⟩ := forall₂_mem_right hev r' hr'
    rcases h with h | ⟨_, h⟩
    · rw [h]
      exact hok.paid_nonneg r hr
    · rw [h]
      exact le_refl _
  · intro r' hr' hf
    obtain ⟨r, hr, h⟩ := forall₂_mem_right hev r' hr'
    rcases h with h | ⟨_, h⟩
    · rw [h] at hf ⊢
      exact hok.fraud_unpaid r hr hf
    · rw [h]
      rfl

/-- A credit keeps the invariant of the user's ledger, for any timestamps. -/
theorem LedgerOK_creditUser {u : User} (id : String) {s e b : Int}
    (hok : LedgerOK u.Recordings) (hb : 0 ≤ b) :
    LedgerOK (creditUser u id s e b).1.Recordings := by
  have hidx := insertIndex_spec u.Recordings s hok.sorted
  have hX := LedgerOK_reverseAll s e hok
  rw [creditUser_recs]
  refine ⟨?_, ?_, ?_, ?_⟩
  · apply pairwise_insertAt hX.sorted
    · intro a ha
      obtain ⟨k, hk, hka⟩ := mem_take_getElem? ha
      obtain ⟨r, hr, rfl⟩ := reverseAll_entry hka
      have := hidx.1 k r hk hr
      rw [ite_markFraud_Start]
      exact le_of_lt this
    · intro c hc
      obtain ⟨k, hk, hkc⟩ := mem_drop_getElem? hc
      obtain ⟨r, hr, rfl⟩ := reverseAll_entry hkc
      have := hidx.2 k r hk hr
      rw [ite_markFraud_Start]
      exact this
  · apply pairwise_insertAt hX.apart
    · intro a ha hl
      obtain ⟨k, hk, hka⟩ := mem_take_getElem? ha
      obtain ⟨r, hr, rfl⟩ := reverseAll_entry hka
      by_cases hc : k ∈ overlapOf u.Recordings s e ∧ r.IsFraud = false
      · rw [if_pos hc] at hl
        cases hl
      · rw [if_neg hc] at hl ⊢
        by_contra hend
        exact hc ⟨overlapOf_complete_back hok hr hl hk (by simpa using hend), hl⟩
    · intro c hc hl
      have hflag : ¬ (creditUser u id s e b).2 = true := by simpa using hl
      have hnil : overlapOf u.Recordings s e = [] := by
        by_contra hne
        exact hflag ((creditUser_flag u id s e b).2 hne)
      obtain ⟨k, hk, hkc⟩ := mem_drop_getElem? hc
      obtain ⟨r, hr, rfl⟩ := reverseAll_entry hkc
      have hst : e ≤ r.Start := by
        by_contra hcon
        have := overlapOf_complete_fwd hok.sorted hr hk (by simpa using hcon)
        rw [hnil] at this
        exact absurd this (List.not_mem_nil k)
      rw [ite_markFraud_Start]
      exact hst
  · intro r hr
    rcases mem_insertAt hr with rfl | h
    · simp only
      split_ifs
      · exact le_refl _
      · exact hb
    · exact hX.paid_nonneg r h
  · intro r hr hf
    rcases mem_insertAt hr with rfl | h
    · simp only at hf ⊢
      rw [if_pos hf]
    · exact hX.fraud_unpaid r h hf

/-! ## The participant list -/

theorem dedup_foldl_spec :
    ∀ (ps : List String) (seen : String → Bool) (acc : List String),
      (∀ k, seen k = true ↔ k ∈ acc) → acc.Nodup →
      (∀ k, (ps.foldl dedupStep (seen, acc)).1 k = true ↔
          k ∈ (ps.foldl dedupStep (seen, acc)).2) ∧
        (ps.foldl dedupStep (seen, acc)).2.Nodup ∧
        (∀ k, k ∈ (ps.foldl dedupStep (seen, acc)).2 ↔ k ∈ acc ∨ (k ∈ ps ∧ k ≠ ""))
  | [], seen, acc, hseen, hnd => by simpa using ⟨hseen, hnd⟩
  | p :: ps, seen, acc, hseen, hnd => by
    simp only [List.foldl_cons]
    by_cases hc : p ≠ "" ∧ seen p = false
    · have hstep : dedupStep (seen, acc) p =
          (fun k => if k = p then true else seen k, acc ++ [p]) := by
        simp [dedupStep, hc.1, hc.2]
      have hp : p ∉ acc := by
        intro h
        have := (hseen p).2 h
        rw [hc.2] at this
        cases this
      rw [hstep]
      obtain ⟨h1, h2, h3⟩ := dedup_foldl_spec ps (fun k => if k = p then true else seen k)
        (acc ++ [p])
        (by
          intro k
          by_cases hk : k = p
          · simp [hk]
          · simp [hk, hseen k])
        (by
          rw [List.nodup_append]
          refine ⟨hnd, List.nodup_singleton p, ?_⟩
          intro a ha hb
          rw [List.mem_singleton] at hb
          subst hb
          exact hp ha)
      refine ⟨h1, h2, fun k => ?_⟩
      rw [h3 k]
      simp only [List.mem_append, List.mem_cons, List.not_mem_nil, or_false]
      constructor
      · rintro ((h | h) | h)
        · exact Or.inl h
        · exact Or.inr ⟨Or.inl h, h ▸ hc.1⟩
        · exact Or.inr ⟨Or.inr h.1, h.2⟩
      · rintro (h | ⟨h | h, hne⟩)
        · exact Or.inl (Or.inl h)
        · exact Or.inl (Or.inr h)
        · exact Or.inr ⟨h, hne⟩
    · have hstep : dedupStep (seen, acc) p = (seen, acc) := by
        simp only [dedupStep, hc, if_false]
      rw [hstep]
      obtain ⟨h1, h2, h3⟩ := dedup_foldl_spec ps seen acc hseen hnd
      refine ⟨h1, h2, fun k => ?_⟩
      rw [h3 k]
      simp only [List.mem_cons]
      constructor
      · rintro (h | h)
        · exact Or.inl h
        · exact Or.inr ⟨Or.inr h.1, h.2⟩
      · rintro (h | ⟨h | h, hne⟩)
        · exact Or.inl h
        · subst h
          left
          apply (hseen k).1
          by_contra hs
          exact hc ⟨hne, by simpa using hs⟩
        · exact Or.inr ⟨h, hne⟩

theorem mem_uniqueParticipants (ps : List String) (k : String) :
    k ∈ uniqueParticipants ps ↔ k ∈ ps ∧ k ≠ "" := by
  have := (dedup_foldl_spec ps (fun _ => false) [] (by simp) List.nodup_nil).2.2 k
  simpa [uniqueParticipants] using this

theorem nodup_uniqueParticipants (ps : List String) : (uniqueParticipants ps).Nodup :=
  (dedup_foldl_spec ps (fun _ => false) [] (by simp) List.nodup_nil).2.1

theorem uniqueParticipants_eq_nil (ps : List String) :
    uniqueParticipants ps = [] ↔ ∀ p ∈ ps, p = "" := by
  rw [List.eq_nil_iff_forall_not_mem]
  constructor
  · intro h p hp
    by_contra hne
    exact h p ((mem_uniqueParticipants ps p).2 ⟨hp, hne⟩)
  · intro h p hp
    obtain ⟨h1, h2⟩ := (mem_uniqueParticipants ps p).1 hp
    exact h2 (h p h1)

theorem mem_sortStrings (l : List String) (k : String) : k ∈ sortStrings l ↔ k ∈ l :=
  (List.perm_insertionSort strLE l).mem_iff

theorem nodup_sortStrings {l : List String} (h : l.Nodup) : (sortStrings l).Nodup :=
  (List.perm_insertionSort strLE l).nodup_iff.2 h

instance strLE_total : IsTotal String strLE := ⟨fun a b => le_total a.data b.data⟩

instance strLE_trans : IsTrans String strLE :=
  ⟨fun a b c h1 h2 => @le_trans (List Char) _ a.data b.data c.data h1 h2⟩

instance strLE_antisymm : IsAntisymm String strLE :=
  ⟨fun a b h1 h2 => String.ext (@le_antisymm (List Char) _ a.data b.data h1 h2)⟩

/-- The sorted participant list depends only on the set of non-empty identifiers. -/
theorem sortStrings_unique_congr {P Q : List String}
    (h : ∀ k, k ≠ "" → (k ∈ P ↔ k ∈ Q)) :
    sortStrings (uniqueParticipants P) = sortStrings (uniqueParticipants Q) := by
  have hperm : (uniqueParticipants P).Perm (uniqueParticipants Q) := by
    rw [List.perm_ext_iff_of_nodup (nodup_uniqueParticipants P) (nodup_uniqueParticipants Q)]
    intro k
    rw [mem_uniqueParticipants, mem_uniqueParticipants]
    constructor
    · rintro ⟨h1, h2⟩
      exact ⟨(h k h2).1 h1, h2⟩
    · rintro ⟨h1, h2⟩
      exact ⟨(h k h2).2 h1, h2⟩
  exact @List.eq_of_perm_of_sorted String strLE _ _ _
    (((List.perm_insertionSort strLE _).trans hperm).trans
      (List.perm_insertionSort strLE _).symm)
    (List.sorted_insertionSort strLE _) (List.sorted_insertionSort strLE _)

/-! ## `creditRecording` as a function of each participant's own ledger -/

theorem Store.ext_users {s t : Store} (h : ∀ k, s.users k = t.users k) : s = t := by
  cases s
  cases t
  congr
  exact funext h

theorem GetUser_users (s : Store) (u k : String) :
    (GetUser s u).2.users k = if k = u then some (ledgerOf s u) else s.users k := by
  unfold GetUser ledgerOf
  cases h : s.users u with
  | none => simp
  | some v =>
    by_cases hk : k = u
    · simp [hk, h]
    · simp [hk]

theorem GetUser_fst (s : Store) (u : String) : (GetUser s u).1 = ledgerOf s u := by
  unfold GetUser ledgerOf
  cases h : s.users u <;> simp

theorem ledgerOf_GetUser (s : Store) (u k : String) :
    ledgerOf (GetUser s u).2 k = ledgerOf s k := by
  unfold ledgerOf
  rw [GetUser_users]
  by_cases hk : k = u
  · simp [hk, ledgerOf]
  · simp [hk]

theorem ledgerOf_setUser (s : Store) (u k : String) (v : User) :
    ledgerOf (setUser s u v) k = if k = u then v else ledgerOf s k := by
  unfold ledgerOf setUser
  by_cases hk : k = u <;> simp [hk]

theorem getUsers_users :
    ∀ (uids : List String) (s : Store) (k : String),
      (getUsers s uids).users k = if k ∈ uids then some (ledgerOf s k) else s.users k
  | [], s, k => by simp [getUsers]
  | u :: uids, s, k => by
    have ih := getUsers_users uids (GetUser s u).2 k
    simp only [getUsers, List.foldl_cons] at ih ⊢
    rw [ih, ledgerOf_GetUser, GetUser_users]
    by_cases h1 : k ∈ uids
    · simp [h1]
    · by_cases h2 : k = u
      · simp [h2, h1]
      · simp [h1, h2]

theorem ledgerOf_getUsers (uids : List String) (s : Store) (k : String) :
    ledgerOf (getUsers s uids) k = ledgerOf s k := by
  unfold ledgerOf
  rw [getUsers_users]
  by_cases h : k ∈ uids
  · simp [h, ledgerOf]
  · simp [h]

theorem creditStep_store (id : String) (su eu b : Int) (st : Store × creditResult)
    (u : String) :
    (creditStep id su eu b st u).1 = setUser st.1 u (creditUser (ledgerOf st.1 u) id su eu b).1 := by
  unfold creditStep
  dsimp only
  split_ifs <;> rfl

theorem creditStep_cents (id : String) (su eu b : Int) (st : Store × creditResult)
    (u k : String) :
    (creditStep id su eu b st u).2.creditsCents k =
      if k = u then some (if (creditUser (ledgerOf st.1 u) id su eu b).2 then 0 else b)
      else st.2.creditsCents k := by
  unfold creditStep
  dsimp only
  by_cases hf : (creditUser (ledgerOf st.1 u) id su eu b).2 = true <;>
    by_cases hk : k = u <;> simp [hf, hk]

theorem creditStep_fraud (id : String) (su eu b : Int) (st : Store × creditResult)
    (u : String) :
    (creditStep id su eu b st u).2.fraudUsers =
      st.2.fraudUsers ++ (if (creditUser (ledgerOf st.1 u) id su eu b).2 then [u] else []) := by
  unfold creditStep
  dsimp only
  split_ifs <;> simp

/-- The crediting loop over pairwise distinct identifiers: every listed user is processed
exactly once, on the ledger they had when the loop started. -/
theorem foldl_creditStep (id : String) (su eu b : Int) :
    ∀ (uids : List String) (st : Store × creditResult), uids.Nodup →
      (∀ k, (uids.foldl (creditStep id su eu b) st).1.users k =
          if k ∈ uids then some (creditUser (ledgerOf st.1 k) id su eu b).1
          else st.1.users k) ∧
        (∀ k, (uids.foldl (creditStep id su eu b) st).2.creditsCents k =
          if k ∈ uids then some (if (creditUser (ledgerOf st.1 k) id su eu b).2 then 0 else b)
          else st.2.creditsCents k) ∧
        (uids.foldl (creditStep id su eu b) st).2.fraudUsers =
          st.2.fraudUsers ++ uids.filter (fun k => (creditUser (ledgerOf st.1 k) id su eu b).2)
  | [], st, _ => by simp
  | u :: uids, st, hnd => by
    obtain ⟨hu, hnd'⟩ := List.nodup_cons.1 hnd
    simp only [List.foldl_cons]
    have hled : ∀ k, k ∈ uids →
        creditUser (ledgerOf (creditStep id su eu b st u).1 k) id su eu b =
          creditUser (ledgerOf st.1 k) id su eu b := by
      intro k hk
      have hne : k ≠ u := fun h => hu (h ▸ hk)
      rw [creditStep_store, ledgerOf_setUser, if_neg hne]
    obtain ⟨h1, h2, h3⟩ := foldl_creditStep id su eu b uids (creditStep id su eu b st u) hnd'
    refine ⟨fun k => ?_, fun k => ?_, ?_⟩
    · rw [h1 k, creditStep_store]
      by_cases hk : k ∈ uids
      · have := hled k hk
        rw [creditStep_store] at this
        simp [hk, this]
      · by_cases hku : k = u
        · subst hku
          simp [hk, setUser]
        · simp [hk, hku, setUser]
    · rw [h2 k, creditStep_cents]
      by_cases hk : k ∈ uids
      · simp [hk, hled k hk]
      · by_cases hku : k = u
        · subst hku
          simp [hk]
        · simp [hk, hku]
    · rw [h3, creditStep_fraud]
      have hfilter : uids.filter
          (fun k => (creditUser (ledgerOf (creditStep id su eu b st u).1 k) id su eu b).2) =
          uids.filter (fun k => (creditUser (ledgerOf st.1 k) id su eu b).2) :=
        List.filter_congr (fun k hk => by rw [hled k hk])
      rw [hfilter]
      by_cases hf : (creditUser (ledgerOf st.1 u) id su eu b).2 = true
      · simp [List.filter_cons, hf]
      · simp [List.filter_cons, hf]

theorem CalculateEarnings_ok {start end_ : Time} (h : After end_ start = true) :
    (CalculateEarnings start end_).2 = none := by
  simp [CalculateEarnings, h]

/-- The three precondition failures are the only ones. -/
theorem creditRecording_err_none_iff (s : Store) (id : String) (start end_ : Time)
    (ps : List String) :
    (creditRecording s id start end_ ps).err = none ↔
      id ≠ "" ∧ start < end_ ∧ uniqueParticipants ps ≠ [] := by
  unfold creditRecording
  by_cases h1 : id = ""
  · simp [h1]
  · by_cases h2 : After end_ start = true
    · have h2' : start < end_ := by simpa [After] using h2
      by_cases h3 : uniqueParticipants ps = []
      · simp [h1, h2, CalculateEarnings_ok h2, h3]
      · have h3' : (uniqueParticipants ps).length ≠ 0 := by
          simpa [List.length_eq_zero] using h3
        simp [h1, h2, CalculateEarnings_ok h2, h3, h2']
    · have h2' : ¬ start < end_ := by simpa [After] using h2
      simp [h1, h2, h2']

theorem creditRecording_err_store (s : Store) (id : String) (start end_ : Time)
    (ps : List String) (h : (creditRecording s id start end_ ps).err ≠ none) :
    (creditRecording s id start end_ ps).store = s ∧
      (creditRecording s id start end_ ps).res.fraudUsers = [] ∧
      (creditRecording s id start end_ ps).res.creditsCents = fun _ => none := by
  unfold creditRecording at h ⊢
  by_cases h1 : id = ""
  · simp [h1]
  · by_cases h2 : After end_ start = true
    · by_cases h3 : (uniqueParticipants ps).length = 0
      · simp [h1, h2, CalculateEarnings_ok h2, h3]
      · simp [h1, h2, CalculateEarnings_ok h2, h3] at h
    · simp [h1, h2]

/-- A successful call is the crediting loop run after the locking loop. -/
theorem creditRecording_eq (s : Store) (id : String) (start end_ : Time)
    (ps : List String) (h : (creditRecording s id start end_ ps).err = none) :
    creditRecording s id start end_ ps =
      ⟨((sortStrings (uniqueParticipants ps)).foldl
          (creditStep id (UnixNano start) (UnixNano end_) (CalculateEarnings start end_).1)
          (getUsers s (sortStrings (uniqueParticipants ps)), ⟨[], fun _ => none⟩)).2,
        none,
        ((sortStrings (uniqueParticipants ps)).foldl
          (creditStep id (UnixNano start) (UnixNano end_) (CalculateEarnings start end_).1)
          (getUsers s (sortStrings (uniqueParticipants ps)), ⟨[], fun _ => none⟩)).1⟩ := by
  obtain ⟨h1, h2, h3⟩ := (creditRecording_err_none_iff s id start end_ ps).1 h
  have h2' : After end_ start = true := by simpa [After] using h2
  have h3' : (uniqueParticipants ps).length ≠ 0 := by
    simpa [List.length_eq_zero] using h3
  unfold creditRecording
  simp [h1, h2', h3, CalculateEarnings_ok h2']

/-- A successful call, user by user. -/
theorem creditRecording_ok (s : Store) (id : String) (start end_ : Time)
    (ps : List String) (h : (creditRecording s id start end_ ps).err = none) :
    (∀ k, (creditRecording s id start end_ ps).store.users k =
        if k ∈ ps ∧ k ≠ "" then some (userOut s id start end_ k).1 else s.users k) ∧
      (∀ k, (creditRecording s id start end_ ps).res.creditsCents k =
        if k ∈ ps ∧ k ≠ "" then
          some (if (userOut s id start end_ k).2 then 0 else (CalculateEarnings start end_).1)
        else none) ∧
      (creditRecording s id start end_ ps).res.fraudUsers =
        (sortStrings (uniqueParticipants ps)).filter (fun k => (userOut s id start end_ k).2) := by
  have hmem : ∀ k, k ∈ sortStrings (uniqueParticipants ps) ↔ k ∈ ps ∧ k ≠ "" := by
    intro k
    rw [mem_sortStrings, mem_uniqueParticipants]
  obtain ⟨f1, f2, f3⟩ := foldl_creditStep id (UnixNano start) (UnixNano end_)
    (CalculateEarnings start end_).1 (sortStrings (uniqueParticipants ps))
    (getUsers s (sortStrings (uniqueParticipants ps)), ⟨[], fun _ => none⟩)
    (nodup_sortStrings (nodup_uniqueParticipants ps))
  rw [creditRecording_eq s id start end_ ps h]
  dsimp only at f1 f2 f3 ⊢
  refine ⟨fun k => ?_, fun k => ?_, ?_⟩
  · rw [f1 k, ledgerOf_getUsers, getUsers_users]
    by_cases hk : k ∈ sortStrings (uniqueParticipants ps)
    · simp [hk, (hmem k).1 hk, userOut]
    · have : ¬ (k ∈ ps ∧ k ≠ "") := fun hc => hk ((hmem k).2 hc)
      simp only [hk, this, if_false]
  · rw [f2 k, ledgerOf_getUsers]
    by_cases hk : k ∈ sortStrings (uniqueParticipants ps)
    · simp [hk, (hmem k).1 hk, userOut]
    · have : ¬ (k ∈ ps ∧ k ≠ "") := fun hc => hk ((hmem k).2 hc)
      simp only [hk, this, if_false]
  · rw [f3]
    simp only [List.nil_append]
    exact List.filter_congr (fun k _ => by rw [ledgerOf_getUsers]; rfl)

/-! ## Ledgers after each operation -/

theorem ledgerOf_creditRecording (s : Store) (id : String) (start end_ : Time)
    (ps : List String) (k : String) :
    ledgerOf (creditRecording s id start end_ ps).store k =
      if (creditRecording s id start end_ ps).err = none ∧ k ∈ ps ∧ k ≠ "" then
        (userOut s id start end_ k).1
      else ledgerOf s k := by
  by_cases h : (creditRecording s id start end_ ps).err = none
  · have := (creditRecording_ok s id start end_ ps h).1 k
    unfold ledgerOf at this ⊢
    rw [this]
    by_cases hk : k ∈ ps ∧ k ≠ ""
    · simp [h, hk]
    · simp only [hk, and_false, if_false]
  · rw [(creditRecording_err_store s id start end_ ps h).1]
    simp [h]

theorem ledgerOf_Balance (s : Store) (u k : String) :
    ledgerOf (Balance s u).2 k = ledgerOf s k :=
  ledgerOf_GetUser s u k

theorem ledgerOf_Withdraw (s : Store) (u : String) (amount : Int) (k : String) :
    ledgerOf (Withdraw s u amount).store k =
      if (Withdraw s u amount).err = none ∧ k = u then
        { ledgerOf s u with Balance := (ledgerOf s u).Balance - amount }
      else ledgerOf s k := by
  unfold Withdraw
  simp only [GetUser_fst]
  by_cases h1 : amount ≤ 0
  · simp [h1]
  · by_cases h2 : (ledgerOf s u).Balance < amount
    · simp [h1, h2, ledgerOf_GetUser]
    · by_cases hk : k = u
      · simp [h1, h2, hk, ledgerOf_setUser]
      · simp [h1, h2, hk, ledgerOf_setUser, ledgerOf_GetUser]

theorem Withdraw_err_none_iff (s : Store) (u : String) (amount : Int) :
    (Withdraw s u amount).err = none ↔ 0 < amount ∧ amount ≤ (ledgerOf s u).Balance := by
  unfold Withdraw
  simp only [GetUser_fst]
  by_cases h1 : amount ≤ 0
  · simp [h1]
  · by_cases h2 : (ledgerOf s u).Balance < amount
    · simp [h1, h2]
    · simp [h1, h2]
      omega

theorem Sub_nonneg {start end_ : Int} (h : start < end_) : 0 ≤ Sub end_ start := by
  unfold Sub maxDuration minDuration
  split_ifs with h1 h2
  · norm_num
  · linarith
  · linarith

theorem CalculateEarnings_nonneg (start end_ : Time) : 0 ≤ (CalculateEarnings start end_).1 := by
  unfold CalculateEarnings
  by_cases h : After end_ start = true
  · have h' : start < end_ := by simpa [After] using h
    simp only [h, Bool.not_true, Bool.false_eq_true, if_false]
    apply Int.tdiv_nonneg _ (by norm_num)
    apply mul_nonneg _ (by norm_num [centsPerDollar])
    exact Int.tdiv_nonneg (Sub_nonneg h') (by norm_num [Minute])
  · simp [h]

theorem liveSum_insertAt (recs : List Recording) (idx : Nat) (x : Recording) :
    liveSum (insertAt recs idx x) =
      liveSum recs + (if x.IsFraud = false then x.PaidAmount else 0) := by
  have h : liveSum recs = liveSum (recs.take idx) + liveSum (recs.drop idx) := by
    rw [← liveSum_append, List.take_append_drop]
  rw [insertAt, liveSum_append, liveSum_cons, h]
  ring

theorem liveSum_nonneg :
    ∀ recs : List Recording, (∀ r ∈ recs, 0 ≤ r.PaidAmount) → 0 ≤ liveSum recs
  | [], _ => by simp [liveSum]
  | r :: recs, h => by
    rw [liveSum_cons]
    have h1 := h r (List.mem_cons_self _ _)
    have h2 := liveSum_nonneg recs (fun a ha => h a (List.mem_cons_of_mem _ ha))
    split_ifs <;> omega

/-- How the loop body moves the balance against the sum of the non-fraud paid amounts,
for any timestamps. -/
theorem creditUser_balance_bounds {u : User} (id : String) (s e : Int) {b : Int}
    (hok : LedgerOK u.Recordings) (hb : 0 ≤ b) :
    (0 ≤ u.Balance → 0 ≤ (creditUser u id s e b).1.Balance) ∧
      (u.Balance ≤ liveSum u.Recordings →
        (creditUser u id s e b).1.Balance ≤ liveSum (creditUser u id s e b).1.Recordings) ∧
      (u.Balance = liveSum u.Recordings →
        (creditUser u id s e b).1.Balance = liveSum (creditUser u id s e b).1.Recordings) := by
  by_cases hnil : overlapOf u.Recordings s e = []
  · rw [creditUser_clean id b hnil]
    simp only [liveSum_insertAt, if_true]
    refine ⟨fun h => ?_, fun h => ?_, fun h => ?_⟩ <;> omega
  · have hflag : (creditUser u id s e b).2 = true := (creditUser_flag u id s e b).2 hnil
    have h1 := foldl_reverseOne_balance (overlapOf u.Recordings s e) u.Balance u.Recordings
    have h2 := liveSum_nonneg _ (LedgerOK_reverseAll s e hok).paid_nonneg
    have hbal := creditUser_balance u id s e b
    rw [if_neg hnil] at hbal
    rw [hbal, creditUser_recs, liveSum_insertAt]
    simp only [hflag, Bool.true_eq_false, if_false, add_zero]
    unfold reverseAll at h2 ⊢
    refine ⟨fun _ => le_max_left _ _, fun h => max_le h2 (by omega), fun h => ?_⟩
    rw [max_eq_right (by omega)]
    omega

/-- The invariant of one user's ledger in a reachable store. -/
theorem Reachable.ledgerOK {s : Store} (h : Reachable s) :
    ∀ k, LedgerOK (ledgerOf s k).Recordings ∧ 0 ≤ (ledgerOf s k).Balance := by
  induction h with
  | init =>
    intro k
    exact ⟨LedgerOK_nil, le_refl _⟩
  | credit s id start end_ ps _ ih =>
    intro k
    rw [ledgerOf_creditRecording]
    split_ifs with hc
    · exact ⟨LedgerOK_creditUser id (ih k).1 (CalculateEarnings_nonneg start end_),
        (creditUser_balance_bounds id _ _ (ih k).1
          (CalculateEarnings_nonneg start end_)).1 (ih k).2⟩
    · exact ih k
  | balance s u _ ih =>
    intro k
    rw [ledgerOf_Balance]
    exact ih k
  | withdraw s u amount _ ih =>
    intro k
    rw [ledgerOf_Withdraw]
    split_ifs with hc
    · obtain ⟨hok, _⟩ := hc
      have := (Withdraw_err_none_iff s u amount).1 hok
      refine ⟨(ih u).1, ?_⟩
      show 0 ≤ (ledgerOf s u).Balance - amount
      omega
    · exact ih k

/-- In a reachable store the balance does not exceed the sum of the non-fraud paid
amounts. -/
theorem Reachable.balance_le {s : Store} (h : Reachable s) :
    ∀ k, (ledgerOf s k).Balance ≤ liveSum (ledgerOf s k).Recordings := by
  induction h with
  | init =>
    intro k
    exact le_refl _
  | credit s id start end_ ps hs ih =>
    intro k
    rw [ledgerOf_creditRecording]
    split_ifs with hc
    · exact (creditUser_balance_bounds id _ _ (hs.ledgerOK k).1
        (CalculateEarnings_nonneg start end_)).2.1 (ih k)
    · exact ih k
  | balance s u _ ih =>
    intro k
    rw [ledgerOf_Balance]
    exact ih k
  | withdraw s u amount _ ih =>
    intro k
    rw [ledgerOf_Withdraw]
    split_ifs with hc
    · obtain ⟨hok, _⟩ := hc
      have := (Withdraw_err_none_iff s u amount).1 hok
      have := ih u
      show (ledgerOf s u).Balance - amount ≤ liveSum (ledgerOf s u).Recordings
      omega
    · exact ih k

/-- Without withdrawals the balance is the sum of the non-fraud paid amounts. -/
theorem CreditReachable.balance_eq {s : Store} (h : CreditReachable s) :
    ∀ k, LedgerOK (ledgerOf s k).Recordings ∧
      (ledgerOf s k).Balance = liveSum (ledgerOf s k).Recordings := by
  induction h with
  | init =>
    intro k
    exact ⟨LedgerOK_nil, rfl⟩
  | credit s id start end_ ps _ ih =>
    intro k
    rw [ledgerOf_creditRecording]
    split_ifs with hc
    · exact ⟨LedgerOK_creditUser id (ih k).1 (CalculateEarnings_nonneg start end_),
        (creditUser_balance_bounds id _ _ (ih k).1
          (CalculateEarnings_nonneg start end_)).2.2 (ih k).2⟩
    · exact ih k

/-! ## Further facts about the per-user step -/

theorem markFraud_identity (r : Recording) : identity (markFraud r) = identity r := rfl

theorem reverseAll_identity (u : User) (s e : Int) :
    (reverseAll u s e).2.map identity = u.Recordings.map identity := by
  apply List.ext_getElem?
  intro k
  rw [List.getElem?_map, List.getElem?_map, reverseAll, foldl_reverseOne_getElem?]
  cases u.Recordings[k]? with
  | none => rfl
  | some r =>
    simp only [Option.map_some', Option.some.injEq]
    split_ifs
    · exact markFraud_identity r
    · rfl

theorem reverseAll_paid_nonneg (u : User) (s e : Int)
    (h : ∀ r ∈ u.Recordings, 0 ≤ r.PaidAmount) :
    ∀ r ∈ (reverseAll u s e).2, 0 ≤ r.PaidAmount := by
  intro r hr
  obtain ⟨k, hk⟩ := List.mem_iff_getElem?.1 hr
  rw [reverseAll, foldl_reverseOne_getElem?] at hk
  cases hr0 : u.Recordings[k]? with
  | none => simp [hr0] at hk
  | some r0 =>
    simp only [hr0, Option.map_some', Option.some.injEq] at hk
    split_ifs at hk
    · rw [← hk]
      exact le_refl _
    · rw [← hk]
      exact h r0 (List.mem_iff_getElem?.2 ⟨k, hr0⟩)

/-- The recordings of a user after the loop body: the old ones, identities untouched, and
one new recording for the credited interval. -/
theorem creditUser_recordings (u : User) (id : String) (s e b : Int) :
    ∃ idx olds isFraud paid, olds.map identity = u.Recordings.map identity ∧
      (creditUser u id s e b).1.Recordings = insertAt olds idx ⟨id, s, e, isFraud, paid⟩ := by
  unfold creditUser
  split_ifs
  · exact ⟨_, u.Recordings, false, b, rfl, rfl⟩
  · exact ⟨_, (reverseAll u s e).2, true, 0, reverseAll_identity u s e, rfl⟩

theorem creditRecording_congr (s : Store) (id : String) (start end_ : Time)
    {P Q : List String}
    (h : sortStrings (uniqueParticipants P) = sortStrings (uniqueParticipants Q)) :
    creditRecording s id start end_ P = creditRecording s id start end_ Q := by
  have hlen : (uniqueParticipants P).length = (uniqueParticipants Q).length := by
    rw [← (List.perm_insertionSort strLE (uniqueParticipants P)).length_eq,
      ← (List.perm_insertionSort strLE (uniqueParticipants Q)).length_eq]
    exact congrArg List.length h
  unfold creditRecording
  rw [h, hlen]

theorem CalculateEarnings_sub_minute {start end_ : Int} (h : end_ - start < Minute) :
    (CalculateEarnings start end_).1 = 0 := by
  unfold CalculateEarnings
  by_cases ha : After end_ start = true
  · have hlt : start < end_ := by simpa [After] using ha
    have hsub : Sub end_ start = end_ - start := by
      unfold Sub maxDuration minDuration
      unfold Minute at h
      split_ifs with h1 h2
      · linarith
      · linarith
      · rfl
    simp only [ha, Bool.not_true, Bool.false_eq_true, if_false, hsub]
    rw [Int.tdiv_eq_zero_of_lt (by linarith) h]
    simp
  · simp [ha]

/-! ## Stores reached with timestamps that fit `int64` -/

theorem wrap64_of_fits {x : Int} (h1 : -9223372036854775808 ≤ x)
    (h2 : x ≤ 9223372036854775807) : wrap64 x = x := by
  unfold wrap64
  rw [Int.emod_eq_of_lt (by linarith) (by linarith)]
  ring

theorem UnixNano_of_inRange {t : Time} (h : inRange t) : UnixNano t = t :=
  wrap64_of_fits h.1 h.2

theorem RangeReachable.reachable {s : Store} (h : RangeReachable s) : Reachable s := by
  induction h with
  | init => exact Reachable.init
  | credit s id start end_ ps _ _ _ ih => exact Reachable.credit s id start end_ ps ih
  | balance s u _ ih => exact Reachable.balance s u ih
  | withdraw s u amount _ ih => exact Reachable.withdraw s u amount ih

/-- The loop body keeps intervals non-empty and non-fraud recordings paid the earnings
of their own interval, when the credited instants fit `int64`. -/
theorem LedgerProper_creditUser {u : User} (id : String) {start end_ : Time}
    (hp : LedgerProper u.Recordings) (hs : inRange start) (he : inRange end_)
    (hse : start < end_) :
    LedgerProper (creditUser u id (UnixNano start) (UnixNano end_)
      (CalculateEarnings start end_).1).1.Recordings := by
  rw [creditUser_recs, UnixNano_of_inRange hs, UnixNano_of_inRange he]
  have hev := reverseAll_evolves u start end_
  constructor
  · intro r hr
    rcases mem_insertAt hr with rfl | h
    · exact hse
    · obtain ⟨r0, hr0, hev0⟩ := forall₂_mem_right hev r h
      rw [evolves_Start hev0, evolves_End hev0]
      exact hp.proper r0 hr0
  · intro r hr hl
    rcases mem_insertAt hr with rfl | h
    · simp only at hl ⊢
      rw [hl]
      simp
    · obtain ⟨r0, hr0, hev0⟩ := forall₂_mem_right hev r h
      have := evolves_live hev0 hl
      subst this
      exact hp.earned r hr0 hl

/-- Every ledger of a store reached with in-range timestamps has non-empty intervals and
non-fraud recordings paid the earnings of their own interval. -/
theorem RangeReachable.ledgerProper {s : Store} (h : RangeReachable s) :
    ∀ k, LedgerProper (ledgerOf s k).Recordings := by
  induction h with
  | init =>
    intro k
    exact ⟨fun r hr => absurd hr (List.not_mem_nil r),
      fun r hr => absurd hr (List.not_mem_nil r)⟩
  | credit s id start end_ ps hs he _ ih =>
    intro k
    rw [ledgerOf_creditRecording]
    split_ifs with hc
    · obtain ⟨hok, _, _⟩ := hc
      have hse := ((creditRecording_err_none_iff s id start end_ ps).1 hok).2.1
      exact LedgerProper_creditUser id (ih k) hs he hse
    · exact ih k
  | balance s u _ ih =>
    intro k
    rw [ledgerOf_Balance]
    exact ih k
  | withdraw s u amount _ ih =>
    intro k
    rw [ledgerOf_Withdraw]
    split_ifs with hc
    · exact ih u
    · exact ih k

/-! ## Overlap, crediting and reversal (C1 to C3) -/

/-- C1, evaluated on the code: in `nestedStore` (reachable by two credits) the ledger of
`user1` holds `rec1` over minutes 0 to 100, which intersects minutes 50 to 110, yet
crediting minutes 50 to 110 succeeds without flagging `user1`: the backward scan stops at
`rec2`, which ended at minute 20, and never reaches `rec1`; the scan returns nothing and
the new recording is paid 100 cents as non-fraud. -/
theorem scan_misses_enclosing_recording :
    Reachable nestedStore ∧
      (⟨"rec1", 0, 100 * Minute, true, 0⟩ : Recording) ∈
        (ledgerOf nestedStore "user1").Recordings ∧
      intersects ⟨"rec1", 0, 100 * Minute, true, 0⟩
        (UnixNano (50 * Minute)) (UnixNano (110 * Minute)) ∧
      overlapOf (ledgerOf nestedStore "user1").Recordings
        (UnixNano (50 * Minute)) (UnixNano (110 * Minute)) = [] ∧
      (creditRecording nestedStore "rec3" (50 * Minute) (110 * Minute) ["user1"]).err = none ∧
      "user1" ∉
        (creditRecording nestedStore "rec3" (50 * Minute) (110 * Minute) ["user1"]).res.fraudUsers ∧
      (creditRecording nestedStore "rec3" (50 * Minute) (110 * Minute)
        ["user1"]).res.creditsCents "user1" = some 100 ∧
      (⟨"rec3", 50 * Minute, 110 * Minute, false, 100⟩ : Recording) ∈
        (ledgerOf (creditRecording nestedStore "rec3" (50 * Minute) (110 * Minute)
          ["user1"]).store "user1").Recordings :=
  ⟨Reachable.credit _ _ _ _ _ (Reachable.credit _ _ _ _ _ Reachable.init),
    by decide, by decide, by decide, by decide, by decide, by decide, by decide⟩

/-- C2, evaluated on the code. In `wrapStore` (reachable by one credit, from 2023-01-01
to 2300-01-01) the only recording of `user1` has `End` wrapped to -8032952073709551616,
so no stored interval intersects 2022-06-01 to 2023-06-01; yet crediting that interval
flags `user1`, reports 0 cents and stores the new recording as fraud: the forward scan
tests `Start` only. In `farStore` (one credit, from 2270-01-01 to 2854-01-01) the same
happens for a credit of 1685-06-01 to 1686-01-01, which intersects neither the stored
interval nor the span that was credited. -/
theorem credit_flags_without_stored_overlap :
    (Reachable wrapStore ∧
      (ledgerOf wrapStore "user1").Recordings =
        [⟨"rec1", 1672531200000000000, -8032952073709551616, false, 242812800⟩] ∧
      (∀ r ∈ (ledgerOf wrapStore "user1").Recordings,
        ¬ intersects r (UnixNano 1654041600000000000) (UnixNano 1685577600000000000)) ∧
      (creditRecording wrapStore "rec2" 1654041600000000000 1685577600000000000
        ["user1"]).err = none ∧
      "user1" ∈ (creditRecording wrapStore "rec2" 1654041600000000000 1685577600000000000
        ["user1"]).res.fraudUsers ∧
      (creditRecording wrapStore "rec2" 1654041600000000000 1685577600000000000
        ["user1"]).res.creditsCents "user1" = some 0 ∧
      (CalculateEarnings 1654041600000000000 1685577600000000000).1 = 876000 ∧
      (ledgerOf (creditRecording wrapStore "rec2" 1654041600000000000 1685577600000000000
        ["user1"]).store "user1") =
        ⟨0, [⟨"rec2", 1654041600000000000, 1685577600000000000, true, 0⟩,
          ⟨"rec1", 1672531200000000000, -8032952073709551616, true, 0⟩]⟩) ∧
    (Reachable farStore ∧
      (ledgerOf farStore "user1").Recordings =
        [⟨"rec1", -8979636873709551616, -8997088147419103232, false, 256204778⟩] ∧
      (∀ r ∈ (ledgerOf farStore "user1").Recordings,
        ¬ intersects r (UnixNano (-8980588800000000000)) (UnixNano (-8962099200000000000))) ∧
      ¬ ((9467107200000000000 : Time) < -8962099200000000000 ∧
        (-8980588800000000000 : Time) < 27896400000000000000) ∧
      (creditRecording farStore "rec2" (-8980588800000000000) (-8962099200000000000)
        ["user1"]).err = none ∧
      "user1" ∈ (creditRecording farStore "rec2" (-8980588800000000000)
        (-8962099200000000000) ["user1"]).res.fraudUsers ∧
      (creditRecording farStore "rec2" (-8980588800000000000) (-8962099200000000000)
        ["user1"]).res.creditsCents "user1" = some 0 ∧
      (CalculateEarnings (-8980588800000000000) (-8962099200000000000)).1 = 513600 ∧
      (ledgerOf (creditRecording farStore "rec2" (-8980588800000000000)
        (-8962099200000000000) ["user1"]).store "user1") =
        ⟨0, [⟨"rec2", -8980588800000000000, -8962099200000000000, true, 0⟩,
          ⟨"rec1", -8979636873709551616, -8997088147419103232, true, 0⟩]⟩) :=
  ⟨⟨Reachable.credit _ _ _ _ _ Reachable.init,
      by decide, by decide, by decide, by decide, by decide, by decide, by decide⟩,
    ⟨Reachable.credit _ _ _ _ _ Reachable.init,
      by decide, by decide, by decide, by decide, by decide, by decide, by decide, by decide⟩⟩

/-- What holds of C2 when every credited instant fits `int64` nanoseconds: a participant
none of whose recordings intersects `[start, end)` is not flagged, is credited
`CalculateEarnings(start, end)`, and gains exactly one non-fraud recording paid that
amount. -/
theorem credit_without_overlap_in_range (s : Store) (hs : RangeReachable s) (id : String)
    (start end_ : Time) (ps : List String) (hstart : inRange start) (hend : inRange end_)
    (hok : (creditRecording s id start end_ ps).err = none)
    (u : String) (hu : u ∈ ps) (hne : u ≠ "")
    (hno : ∀ r ∈ (ledgerOf s u).Recordings,
      ¬ intersects r (UnixNano start) (UnixNano end_)) :
    u ∉ (creditRecording s id start end_ ps).res.fraudUsers ∧
      (creditRecording s id start end_ ps).res.creditsCents u =
        some (CalculateEarnings start end_).1 ∧
      (ledgerOf (creditRecording s id start end_ ps).store u).Balance =
        (ledgerOf s u).Balance + (CalculateEarnings start end_).1 ∧
      (∃ idx, idx ≤ (ledgerOf s u).Recordings.length ∧
        (ledgerOf (creditRecording s id start end_ ps).store u).Recordings =
          insertAt (ledgerOf s u).Recordings idx
            ⟨id, UnixNano start, UnixNano end_, false, (CalculateEarnings start end_).1⟩) ∧
      (end_ - start < Minute → (CalculateEarnings start end_).1 = 0) := by
  have hse := ((creditRecording_err_none_iff s id start end_ ps).1 hok).2.1
  have hse' : UnixNano start < UnixNano end_ := by
    rw [UnixNano_of_inRange hstart, UnixNano_of_inRange hend]
    exact hse
  obtain ⟨_, g2, g3⟩ := creditRecording_ok s id start end_ ps hok
  have hnil := overlapOf_eq_nil (hs.reachable.ledgerOK u).1 (hs.ledgerProper u).proper hse' hno
  have hout : userOut s id start end_ u =
      (⟨(ledgerOf s u).Balance + (CalculateEarnings start end_).1,
        insertAt (ledgerOf s u).Recordings (insertIndex (ledgerOf s u).Recordings (UnixNano start))
          ⟨id, UnixNano start, UnixNano end_, false, (CalculateEarnings start end_).1⟩⟩, false) :=
    creditUser_clean id _ hnil
  refine ⟨?_, ?_, ?_, ?_, CalculateEarnings_sub_minute⟩
  · rw [g3, List.mem_filter]
    rintro ⟨_, hf⟩
    rw [hout] at hf
    cases hf
  · rw [g2 u, hout]
    simp [hu, hne]
  · rw [ledgerOf_creditRecording, hout]
    simp [hok, hu, hne]
  · refine ⟨insertIndex (ledgerOf s u).Recordings (UnixNano start), insertIndex_le _ _, ?_⟩
    rw [ledgerOf_creditRecording, hout]
    simp [hok, hu, hne]

/-- The in-range case at a concrete input: after minutes 0 to 60, `user1` is credited
minutes 60 to 120 (touching endpoints). -/
theorem credit_without_overlap_in_range_witness :
    "user1" ∉ (creditRecording hourStore "rec2" (60 * Minute) (120 * Minute)
        ["user1"]).res.fraudUsers ∧
      (creditRecording hourStore "rec2" (60 * Minute) (120 * Minute)
        ["user1"]).res.creditsCents "user1" =
        some (CalculateEarnings (60 * Minute) (120 * Minute)).1 ∧
      (ledgerOf (creditRecording hourStore "rec2" (60 * Minute) (120 * Minute)
        ["user1"]).store "user1").Balance =
        (ledgerOf hourStore "user1").Balance + (CalculateEarnings (60 * Minute) (120 * Minute)).1 ∧
      (∃ idx, idx ≤ (ledgerOf hourStore "user1").Recordings.length ∧
        (ledgerOf (creditRecording hourStore "rec2" (60 * Minute) (120 * Minute)
          ["user1"]).store "user1").Recordings =
          insertAt (ledgerOf hourStore "user1").Recordings idx
            ⟨"rec2", UnixNano (60 * Minute), UnixNano (120 * Minute), false,
              (CalculateEarnings (60 * Minute) (120 * Minute)).1⟩) ∧
      (120 * Minute - 60 * Minute < Minute →
        (CalculateEarnings (60 * Minute) (120 * Minute)).1 = 0) :=
  credit_without_overlap_in_range hourStore
    (RangeReachable.credit _ _ _ _ _ (by decide) (by decide) RangeReachable.init) "rec2"
    (60 * Minute) (120 * Minute) ["user1"] (by decide) (by decide) (by decide) "user1"
    (by decide) (by decide) (by decide)

theorem hitSum_append (s e : Int) (l₁ l₂ : List Recording) :
    hitSum s e (l₁ ++ l₂) = hitSum s e l₁ + hitSum s e l₂ := by
  simp [hitSum]

theorem hitSum_insertAt (s e : Int) (recs : List Recording) (idx : Nat) (x : Recording) :
    hitSum s e (insertAt recs idx x) =
      hitSum s e recs + (if x.IsFraud = false ∧ intersects x s e then x.PaidAmount else 0) := by
  have h : hitSum s e recs = hitSum s e (recs.take idx) + hitSum s e (recs.drop idx) := by
    rw [← hitSum_append, List.take_append_drop]
  rw [insertAt, hitSum_append, hitSum_cons, h]
  ring

theorem hitSum_eq_zero (s e : Int) :
    ∀ recs : List Recording, (∀ r ∈ recs, r.IsFraud = false → ¬ intersects r s e) →
      hitSum s e recs = 0
  | [], _ => by simp [hitSum]
  | r :: recs, h => by
    rw [hitSum_cons, hitSum_eq_zero s e recs (fun a ha => h a (List.mem_cons_of_mem _ ha))]
    have := h r (List.mem_cons_self _ _)
    rw [if_neg (fun hc => this hc.1 hc.2)]
    rfl

/-- C3 as stated fails in two ways. By design: in `laterStore` the balance of `user1` is
166 (minutes 100 to 200, no withdrawal); crediting minutes 0 to 50 raises it to 249, and
crediting the overlapping minutes 40 to 150 reverses both recordings and leaves 0, not
the 166 held before the first of the two credits. By the `int64` wrap of `UnixNano`: in
`wrapStore2` crediting 2022-06-01 to 2023-06-01 also reverses `rec1`, whose stored
interval does not intersect it, and leaves 0 where `max 0 (oldBalance - S)` is
242812800. -/
theorem reversal_exceeds_first_credit :
    (RangeReachable laterStore ∧
      (ledgerOf laterStore "user1").Balance = 166 ∧
      (creditRecording laterStore "rec1" 0 (50 * Minute) ["user1"]).err = none ∧
      "user1" ∉ (creditRecording laterStore "rec1" 0 (50 * Minute) ["user1"]).res.fraudUsers ∧
      (ledgerOf laterStore1 "user1").Balance = 249 ∧
      (⟨"rec1", 0, 50 * Minute, false, 83⟩ : Recording) ∈
        (ledgerOf laterStore1 "user1").Recordings ∧
      intersects ⟨"rec1", 0, 50 * Minute, false, 83⟩
        (UnixNano (40 * Minute)) (UnixNano (150 * Minute)) ∧
      (creditRecording laterStore1 "rec2" (40 * Minute) (150 * Minute) ["user1"]).err = none ∧
      (ledgerOf (creditRecording laterStore1 "rec2" (40 * Minute) (150 * Minute)
        ["user1"]).store "user1").Balance = 0) ∧
    (Reachable wrapStore2 ∧
      (∃ r ∈ (ledgerOf wrapStore2 "user1").Recordings, r.IsFraud = false ∧
        intersects r (UnixNano 1654041600000000000) (UnixNano 1685577600000000000)) ∧
      (creditRecording wrapStore2 "rec2" 1654041600000000000 1685577600000000000
        ["user1"]).err = none ∧
      (ledgerOf (creditRecording wrapStore2 "rec2" 1654041600000000000 1685577600000000000
        ["user1"]).store "user1").Balance = 0 ∧
      max 0 ((ledgerOf wrapStore2 "user1").Balance -
        hitSum (UnixNano 1654041600000000000) (UnixNano 1685577600000000000)
          (ledgerOf wrapStore2 "user1").Recordings) = 242812800) :=
  ⟨⟨RangeReachable.credit _ _ _ _ _ (by decide) (by decide) RangeReachable.init,
      by decide, by decide, by decide, by decide, by decide, by decide, by decide, by decide⟩,
    ⟨Reachable.credit _ _ _ _ _ (Reachable.credit _ _ _ _ _ Reachable.init),
      by decide, by decide, by decide, by decide⟩⟩

/-- C3, amended: from a store reached with instants that fit `int64` nanoseconds, a
successful `creditRecording` with such instants treats a participant `u` who has a
non-fraud recording intersecting `[start, end)` as follows: the ledger becomes the old
recordings, each non-fraud one that intersects the interval now fraud with `PaidAmount`
0 (`reverseHit`), plus the new recording, stored as fraud; the balance is
`max 0 (oldBalance - S)`, `S` being the sum of the former `PaidAmount` of the reversed
recordings (`hitSum`); and when the store results from a credit of `u` that was not
flagged, and no non-fraud recording `u` held before that credit intersects
`[start, end)`, the balance returns to its value before that credit. -/
theorem credit_reverses_overlapping (s : Store) (hs : RangeReachable s) (id : String)
    (start end_ : Time) (ps : List String) (hstart : inRange start) (hend : inRange end_)
    (hok : (creditRecording s id start end_ ps).err = none)
    (u : String) (hu : u ∈ ps) (hne : u ≠ "")
    (hex : ∃ r ∈ (ledgerOf s u).Recordings,
      r.IsFraud = false ∧ intersects r (UnixNano start) (UnixNano end_)) :
    (∃ idx, idx ≤ (ledgerOf s u).Recordings.length ∧
        (ledgerOf (creditRecording s id start end_ ps).store u).Recordings =
          insertAt ((ledgerOf s u).Recordings.map (reverseHit (UnixNano start) (UnixNano end_)))
            idx ⟨id, UnixNano start, UnixNano end_, true, 0⟩) ∧
      (∀ r ∈ (ledgerOf s u).Recordings, r.IsFraud = false →
        intersects r (UnixNano start) (UnixNano end_) →
        (reverseHit (UnixNano start) (UnixNano end_) r).IsFraud = true ∧
          (reverseHit (UnixNano start) (UnixNano end_) r).PaidAmount = 0) ∧
      (ledgerOf (creditRecording s id start end_ ps).store u).Balance =
        max 0 ((ledgerOf s u).Balance -
          hitSum (UnixNano start) (UnixNano end_) (ledgerOf s u).Recordings) ∧
      (∀ (s0 : Store) (id1 : String) (start1 end1 : Time) (ps1 : List String),
        RangeReachable s0 → inRange start1 → inRange end1 →
        s = (creditRecording s0 id1 start1 end1 ps1).store →
        (creditRecording s0 id1 start1 end1 ps1).err = none → u ∈ ps1 →
        u ∉ (creditRecording s0 id1 start1 end1 ps1).res.fraudUsers →
        (∀ r ∈ (ledgerOf s0 u).Recordings, r.IsFraud = false →
          ¬ intersects r (UnixNano start) (UnixNano end_)) →
        (ledgerOf (creditRecording s id start end_ ps).store u).Balance =
          (ledgerOf s0 u).Balance) := by
  have hse := ((creditRecording_err_none_iff s id start end_ ps).1 hok).2.1
  have hse' : UnixNano start < UnixNano end_ := by
    rw [UnixNano_of_inRange hstart, UnixNano_of_inRange hend]
    exact hse
  obtain ⟨r, hr, hl, hi⟩ := hex
  have hnn := overlapOf_ne_nil (hs.reachable.ledgerOK u).1 hr hl hi
  have hout : userOut s id start end_ u = _ :=
    creditUser_fraud id (CalculateEarnings start end_).1 (hs.reachable.ledgerOK u).1
      (hs.ledgerProper u).proper hse' hnn
  have hbal : (ledgerOf (creditRecording s id start end_ ps).store u).Balance =
      max 0 ((ledgerOf s u).Balance -
        hitSum (UnixNano start) (UnixNano end_) (ledgerOf s u).Recordings) := by
    rw [ledgerOf_creditRecording, hout]
    simp [hok, hu, hne]
  refine ⟨⟨insertIndex (ledgerOf s u).Recordings (UnixNano start), insertIndex_le _ _, ?_⟩,
    ?_, hbal, ?_⟩
  · rw [ledgerOf_creditRecording, hout]
    simp [hok, hu, hne]
  · intro a _ hal hai
    simp [reverseHit, hal, hai, markFraud]
  · intro s0 id1 start1 end1 ps1 hs0 _ _ hs1 hok1 hu1 hnf hno0
    have hflag : ¬ (userOut s0 id1 start1 end1 u).2 = true := by
      intro hf
      apply hnf
      rw [(creditRecording_ok s0 id1 start1 end1 ps1 hok1).2.2, List.mem_filter,
        mem_sortStrings, mem_uniqueParticipants]
      exact ⟨⟨hu1, hne⟩, hf⟩
    have hnil1 : overlapOf (ledgerOf s0 u).Recordings (UnixNano start1) (UnixNano end1) = [] := by
      by_contra hc
      exact hflag ((creditUser_flag _ _ _ _ _).2 hc)
    have hled : ledgerOf s u = (userOut s0 id1 start1 end1 u).1 := by
      rw [hs1, ledgerOf_creditRecording, if_pos ⟨hok1, hu1, hne⟩]
    have hout1 : userOut s0 id1 start1 end1 u = _ := creditUser_clean id1 _ hnil1
    rw [hout1] at hled
    have hb0 := (hs0.reachable.ledgerOK u).2
    have hmem : r ∈ insertAt (ledgerOf s0 u).Recordings
        (insertIndex (ledgerOf s0 u).Recordings (UnixNano start1))
        ⟨id1, UnixNano start1, UnixNano end1, false, (CalculateEarnings start1 end1).1⟩ := by
      have := hr
      rw [hled] at this
      exact this
    have hnew : intersects
        ⟨id1, UnixNano start1, UnixNano end1, false, (CalculateEarnings start1 end1).1⟩
        (UnixNano start) (UnixNano end_) := by
      rcases mem_insertAt hmem with h | h
      · rw [← h]
        exact hi
      · exact absurd hi (hno0 r h hl)
    rw [hbal, hled]
    show max 0 (_ - hitSum _ _ (insertAt _ _ _)) = _
    rw [hitSum_insertAt, hitSum_eq_zero _ _ _ hno0, zero_add, if_pos ⟨rfl, hnew⟩]
    simp only [add_sub_cancel_right]
    exact max_eq_right hb0

/-- C3 (amended) at the input of `TestFraudOverlap`: `rec2` (10:30 to 11:30) is credited
to `user1` and `user3` after `rec1`; the balance of `user1` ends at 0, its value before
`rec1`. -/
theorem credit_reverses_overlapping_witness :
    ((ledgerOf (creditRecording afterRec1 "rec2" 1672569000000000000 1675510200000000000
        ["user1", "user3"]).store "user1").Balance =
        max 0 ((ledgerOf afterRec1 "user1").Balance -
          hitSum (UnixNano 1672569000000000000) (UnixNano 1675510200000000000)
            (ledgerOf afterRec1 "user1").Recordings)) ∧
      (ledgerOf afterRec1 "user1").Balance = 81701 ∧
      (ledgerOf (creditRecording afterRec1 "rec2" 1672569000000000000 1675510200000000000
        ["user1", "user3"]).store "user1").Balance = (ledgerOf NewStore "user1").Balance :=
  ⟨(credit_reverses_overlapping afterRec1
      (RangeReachable.credit _ _ _ _ _ (by decide) (by decide) RangeReachable.init) "rec2"
      1672569000000000000 1675510200000000000 ["user1", "user3"] (by decide) (by decide)
      (by decide) "user1" (by decide) (by decide) (by decide)).2.2.1,
    by decide,
    (credit_reverses_overlapping afterRec1
      (RangeReachable.credit _ _ _ _ _ (by decide) (by decide) RangeReachable.init) "rec2"
      1672569000000000000 1675510200000000000 ["user1", "user3"] (by decide) (by decide)
      (by decide) "user1" (by decide) (by decide) (by decide)).2.2.2
      NewStore "rec1" 1672567200000000000 1675508460000000000 ["user1", "user2"]
      RangeReachable.init (by decide) (by decide) rfl (by decide) (by decide) (by decide)
      (by decide)⟩

/-! ## Invariants of reachable stores (C4 to C6) -/

/-- C4: in every store reachable by `creditRecording`, `Balance` and `Withdraw` calls, no
two distinct non-fraud recordings of one user have intersecting half-open intervals. -/
theorem live_recordings_disjoint (s : Store) (hs : Reachable s) (u : String) :
    (ledgerOf s u).Recordings.Pairwise
      (fun a b => a.IsFraud = false → b.IsFraud = false →
        ¬ (a.Start < b.End ∧ b.Start < a.End)) := by
  refine (hs.ledgerOK u).1.apart.imp ?_
  intro a b h ha _ hc
  have := h ha
  omega

/-- C4 at a concrete store: `user1` after minutes 0 to 60 and minutes 60 to 120, which
touch; both recordings are stored non-fraud. -/
theorem live_recordings_disjoint_witness :
    (ledgerOf twoHourStore "user1").Recordings =
        [⟨"rec1", 0, 60 * Minute, false, 100⟩, ⟨"rec2", 60 * Minute, 120 * Minute, false, 100⟩] ∧
      (ledgerOf twoHourStore "user1").Recordings.Pairwise
        (fun a b => a.IsFraud = false → b.IsFraud = false →
          ¬ (a.Start < b.End ∧ b.Start < a.End)) :=
  ⟨by decide, live_recordings_disjoint twoHourStore
    (Reachable.credit _ _ _ _ _ (Reachable.credit _ _ _ _ _ Reachable.init)) "user1"⟩

/-- The intervals of C4 are those of the stored fields. In `wrapStore` the recording
credited from 2023-01-01 to 2300-01-01 is stored with `End` wrapped below `Start`;
crediting 2100-01-01 to 2100-01-02 afterwards finds no overlap, and both recordings
stay non-fraud although the credited spans intersect. -/
theorem wrapped_recording_hides_overlap :
    (ledgerOf (creditRecording wrapStore "rec2" 4102444800000000000 4102531200000000000
        ["user1"]).store "user1").Recordings =
      [⟨"rec1", 1672531200000000000, -8032952073709551616, false, 242812800⟩,
        ⟨"rec2", 4102444800000000000, 4102531200000000000, false, 2400⟩] ∧
      ((1672531200000000000 : Time) < 4102531200000000000 ∧
        (4102444800000000000 : Time) < 10413792000000000000) := by
  decide

/-- C5: in every store reachable by `creditRecording` calls alone, each user's balance is
the sum of `PaidAmount` over that user's non-fraud recordings, and whatever interval is
credited next, the balance left by the reversal loop is not negative, so the clamp
`if u.Balance < 0` does not change it. -/
theorem balance_is_live_sum (s : Store) (hs : CreditReachable s) (u : String) :
    (ledgerOf s u).Balance = liveSum (ledgerOf s u).Recordings ∧
      ∀ start end_ : Time,
        ¬ (reverseAll (ledgerOf s u) (UnixNano start) (UnixNano end_)).1 < 0 := by
  obtain ⟨hok, hbal⟩ := hs.balance_eq u
  refine ⟨hbal, fun start end_ => ?_⟩
  have h1 := foldl_reverseOne_balance
    (overlapOf (ledgerOf s u).Recordings (UnixNano start) (UnixNano end_))
    (ledgerOf s u).Balance (ledgerOf s u).Recordings
  have h2 := liveSum_nonneg _
    (reverseAll_paid_nonneg (ledgerOf s u) (UnixNano start) (UnixNano end_) hok.paid_nonneg)
  unfold reverseAll at h2 ⊢
  omega

/-- C5 at a concrete store: `user1` after minutes 0 to 100 and minutes 10 to 20. -/
theorem balance_is_live_sum_witness :
    (ledgerOf nestedStore "user1").Balance = liveSum (ledgerOf nestedStore "user1").Recordings ∧
      ∀ start end_ : Time,
        ¬ (reverseAll (ledgerOf nestedStore "user1") (UnixNano start) (UnixNano end_)).1 < 0 :=
  balance_is_live_sum nestedStore
    (CreditReachable.credit _ _ _ _ _ (CreditReachable.credit _ _ _ _ _ CreditReachable.init))
    "user1"

/-- C6: in every store reachable by `creditRecording`, `Balance` and `Withdraw` calls, each
user's balance and each recording's `PaidAmount` are non-negative. -/
theorem amounts_nonneg (s : Store) (hs : Reachable s) (u : String) :
    0 ≤ (ledgerOf s u).Balance ∧ ∀ r ∈ (ledgerOf s u).Recordings, 0 ≤ r.PaidAmount :=
  ⟨(hs.ledgerOK u).2, (hs.ledgerOK u).1.paid_nonneg⟩

/-- C6 at a concrete store: `user1` credited an hour, 100 cents withdrawn. -/
theorem amounts_nonneg_witness :
    0 ≤ (ledgerOf (Withdraw hourStore "user1" 100).store "user1").Balance ∧
      ∀ r ∈ (ledgerOf (Withdraw hourStore "user1" 100).store "user1").Recordings,
        0 ≤ r.PaidAmount :=
  amounts_nonneg (Withdraw hourStore "user1" 100).store
    (Reachable.withdraw _ _ _ (Reachable.credit _ _ _ _ _ Reachable.init)) "user1"

/-! ## Preconditions, participants and withdrawal (C7 to C10) -/

/-- C7: `creditRecording` returns an error exactly when the recording identifier is empty,
or `end` is not after `start`, or no participant identifier is non-empty; and then the
store is the one it was called on. -/
theorem creditRecording_error (s : Store) (id : String) (start end_ : Time)
    (ps : List String) :
    ((creditRecording s id start end_ ps).err ≠ none ↔
        id = "" ∨ ¬ start < end_ ∨ ∀ p ∈ ps, p = "") ∧
      ((creditRecording s id start end_ ps).err ≠ none →
        (creditRecording s id start end_ ps).store = s) := by
  refine ⟨?_, fun h => (creditRecording_err_store s id start end_ ps h).1⟩
  rw [Ne, creditRecording_err_none_iff, ← uniqueParticipants_eq_nil]
  tauto

/-- C8: in a successful call, each participant's stored ledger, credited amount and fraud
flag are those of the call made with that participant alone on the same store. -/
theorem credit_participant_alone (s : Store) (id : String) (start end_ : Time)
    (ps : List String) (hok : (creditRecording s id start end_ ps).err = none)
    (u : String) (hu : u ∈ ps) :
    (creditRecording s id start end_ ps).store.users u =
        (creditRecording s id start end_ [u]).store.users u ∧
      (creditRecording s id start end_ ps).res.creditsCents u =
        (creditRecording s id start end_ [u]).res.creditsCents u ∧
      (u ∈ (creditRecording s id start end_ ps).res.fraudUsers ↔
        u ∈ (creditRecording s id start end_ [u]).res.fraudUsers) := by
  obtain ⟨h1, h2, _⟩ := (creditRecording_err_none_iff s id start end_ ps).1 hok
  obtain ⟨g1, g2, g3⟩ := creditRecording_ok s id start end_ ps hok
  by_cases hne : u = ""
  · have herr : (creditRecording s id start end_ [u]).err ≠ none := by
      intro hc
      have h3 := ((creditRecording_err_none_iff s id start end_ [u]).1 hc).2.2
      apply h3
      rw [uniqueParticipants_eq_nil]
      intro p hp
      rw [List.mem_singleton] at hp
      rw [hp, hne]
    obtain ⟨e1, e2, e3⟩ := creditRecording_err_store s id start end_ [u] herr
    rw [e1, e2, e3, g1 u, g2 u, g3]
    simp [hne, List.mem_filter, mem_sortStrings, mem_uniqueParticipants]
  · have hok1 : (creditRecording s id start end_ [u]).err = none := by
      rw [creditRecording_err_none_iff]
      refine ⟨h1, h2, ?_⟩
      rw [Ne, uniqueParticipants_eq_nil]
      intro hc
      exact hne (hc u (List.mem_singleton_self u))
    obtain ⟨k1, k2, k3⟩ := creditRecording_ok s id start end_ [u] hok1
    rw [g1 u, g2 u, g3, k1 u, k2 u, k3]
    simp [hu, hne, List.mem_filter, mem_sortStrings, mem_uniqueParticipants]

/-- C8 at the second call of `TestFraudOverlap`: `user3`, credited together with the
fraudulent `user1`. -/
theorem credit_participant_alone_witness :
    (creditRecording afterRec1 "rec2" 1672569000000000000 1675510200000000000
        ["user1", "user3"]).store.users "user3" =
        (creditRecording afterRec1 "rec2" 1672569000000000000 1675510200000000000
          ["user3"]).store.users "user3" ∧
      (creditRecording afterRec1 "rec2" 1672569000000000000 1675510200000000000
        ["user1", "user3"]).res.creditsCents "user3" =
        (creditRecording afterRec1 "rec2" 1672569000000000000 1675510200000000000
          ["user3"]).res.creditsCents "user3" ∧
      ("user3" ∈ (creditRecording afterRec1 "rec2" 1672569000000000000 1675510200000000000
          ["user1", "user3"]).res.fraudUsers ↔
        "user3" ∈ (creditRecording afterRec1 "rec2" 1672569000000000000 1675510200000000000
          ["user3"]).res.fraudUsers) :=
  credit_participant_alone afterRec1 "rec2" 1672569000000000000 1675510200000000000
    ["user1", "user3"] (by decide) "user3" (by decide)

/-- C9: two participant lists with the same non-empty identifiers give the same
`creditsCents`, the same `fraudUsers`, the same store and the same error; and in a
successful call each non-empty identifier of the list has an entry in `creditsCents` and
its ledger is the old one (identities unchanged) with exactly one recording added, for the
credited interval. -/
theorem credit_participant_set (s : Store) (id : String) (start end_ : Time)
    (P Q : List String) (h : ∀ k, k ≠ "" → (k ∈ P ↔ k ∈ Q)) :
    (creditRecording s id start end_ P).res.creditsCents =
        (creditRecording s id start end_ Q).res.creditsCents ∧
      (creditRecording s id start end_ P).res.fraudUsers =
        (creditRecording s id start end_ Q).res.fraudUsers ∧
      (creditRecording s id start end_ P).store = (creditRecording s id start end_ Q).store ∧
      (creditRecording s id start end_ P).err = (creditRecording s id start end_ Q).err ∧
      ((creditRecording s id start end_ P).err = none → ∀ u ∈ P, u ≠ "" →
        ((creditRecording s id start end_ P).res.creditsCents u).isSome = true ∧
        ∃ idx olds isFraud paid,
          olds.map identity = (ledgerOf s u).Recordings.map identity ∧
          (ledgerOf (creditRecording s id start end_ P).store u).Recordings =
            insertAt olds idx ⟨id, UnixNano start, UnixNano end_, isFraud, paid⟩) := by
  have hc := creditRecording_congr s id start end_ (sortStrings_unique_congr h)
  refine ⟨by rw [hc], by rw [hc], by rw [hc], by rw [hc], ?_⟩
  intro hok u hu hne
  obtain ⟨_, g2, _⟩ := creditRecording_ok s id start end_ P hok
  refine ⟨by rw [g2 u]; simp [hu, hne], ?_⟩
  rw [ledgerOf_creditRecording]
  simp only [hok, hu, hne, ne_eq, not_false_eq_true, and_self, if_true]
  exact creditUser_recordings _ _ _ _ _

/-- C9 at a concrete input: a list with a repetition and an empty string, and its
reordering without them. -/
theorem credit_participant_set_witness :
    (creditRecording afterRec1 "rec2" 1672569000000000000 1675510200000000000
        ["user3", "", "user1", "user3"]).res.creditsCents =
        (creditRecording afterRec1 "rec2" 1672569000000000000 1675510200000000000
          ["user1", "user3"]).res.creditsCents ∧
      (creditRecording afterRec1 "rec2" 1672569000000000000 1675510200000000000
        ["user3", "", "user1", "user3"]).res.fraudUsers =
        (creditRecording afterRec1 "rec2" 1672569000000000000 1675510200000000000
          ["user1", "user3"]).res.fraudUsers ∧
      (creditRecording afterRec1 "rec2" 1672569000000000000 1675510200000000000
        ["user3", "", "user1", "user3"]).store =
        (creditRecording afterRec1 "rec2" 1672569000000000000 1675510200000000000
          ["user1", "user3"]).store ∧
      (creditRecording afterRec1 "rec2" 1672569000000000000 1675510200000000000
        ["user3", "", "user1", "user3"]).err =
        (creditRecording afterRec1 "rec2" 1672569000000000000 1675510200000000000
          ["user1", "user3"]).err ∧
      ((creditRecording afterRec1 "rec2" 1672569000000000000 1675510200000000000
        ["user3", "", "user1", "user3"]).err = none →
        ∀ u ∈ ["user3", "", "user1", "user3"], u ≠ "" →
        ((creditRecording afterRec1 "rec2" 1672569000000000000 1675510200000000000
          ["user3", "", "user1", "user3"]).res.creditsCents u).isSome = true ∧
        ∃ idx olds isFraud paid,
          olds.map identity = (ledgerOf afterRec1 u).Recordings.map identity ∧
          (ledgerOf (creditRecording afterRec1 "rec2" 1672569000000000000 1675510200000000000
            ["user3", "", "user1", "user3"]).store u).Recordings =
            insertAt olds idx
              ⟨"rec2", UnixNano 1672569000000000000, UnixNano 1675510200000000000,
                isFraud, paid⟩) :=
  credit_participant_set afterRec1 "rec2" 1672569000000000000 1675510200000000000
    ["user3", "", "user1", "user3"] ["user1", "user3"]
    (by intro k _; simp only [List.mem_cons, List.not_mem_nil, or_false]; tauto)

/-- C10: `Withdraw` returns an error exactly when the amount is not positive or exceeds
the balance; then every ledger is unchanged, and for an amount exceeding the balance the
value returned is that balance; otherwise the balance decreases by the amount, the new
balance is returned, and the recordings (and the other users' ledgers) are unchanged. -/
theorem Withdraw_outcome (s : Store) (u : String) (amount : Int) :
    ((Withdraw s u amount).err ≠ none ↔ amount ≤ 0 ∨ (ledgerOf s u).Balance < amount) ∧
      ((Withdraw s u amount).err ≠ none →
        ∀ k, ledgerOf (Withdraw s u amount).store k = ledgerOf s k) ∧
      (0 < amount → (ledgerOf s u).Balance < amount →
        (Withdraw s u amount).value = (ledgerOf s u).Balance) ∧
      ((Withdraw s u amount).err = none →
        (ledgerOf (Withdraw s u amount).store u).Balance = (ledgerOf s u).Balance - amount ∧
        (Withdraw s u amount).value = (ledgerOf s u).Balance - amount ∧
        (ledgerOf (Withdraw s u amount).store u).Recordings = (ledgerOf s u).Recordings ∧
        ∀ k, k ≠ u → ledgerOf (Withdraw s u amount).store k = ledgerOf s k) := by
  refine ⟨?_, ?_, ?_, ?_⟩
  · rw [Ne, Withdraw_err_none_iff]
    omega
  · intro h k
    rw [ledgerOf_Withdraw]
    simp [h]
  · intro h1 h2
    unfold Withdraw
    simp only [GetUser_fst]
    simp [not_le.2 h1, h2]
  · intro h
    have hv : (Withdraw s u amount).value = (ledgerOf s u).Balance - amount := by
      obtain ⟨h1, h2⟩ := (Withdraw_err_none_iff s u amount).1 h
      unfold Withdraw
      simp only [GetUser_fst]
      simp [not_le.2 h1, not_lt.2 h2]
    refine ⟨?_, hv, ?_, ?_⟩
    · rw [ledgerOf_Withdraw]
      simp [h]
    · rw [ledgerOf_Withdraw]
      simp [h]
    · intro k hk
      rw [ledgerOf_Withdraw]
      simp [hk]

/-! ## Earnings (C11, C12) -/

theorem Sub_eq_min {start end_ : Int} (h : start < end_) :
    Sub end_ start = min (end_ - start) maxDuration := by
  unfold Sub maxDuration minDuration
  split_ifs with h1 h2
  · exact (min_eq_right (le_of_lt h1)).symm
  · linarith
  · exact (min_eq_left (not_lt.1 h1)).symm

theorem CalculateEarnings_eq {start end_ : Int} (h : start < end_) :
    (CalculateEarnings start end_).1 = earningsOf (min (end_ - start) maxDuration) := by
  have ha : After end_ start = true := by simpa [After] using h
  have hs := Sub_nonneg h
  have hm : (0 : Int) ≤ Minute := by norm_num [Minute]
  unfold CalculateEarnings earningsOf
  simp only [ha, Bool.not_true, Bool.false_eq_true, if_false]
  rw [← Sub_eq_min h, Int.tdiv_eq_ediv hs hm,
    Int.tdiv_eq_ediv (mul_nonneg (Int.ediv_nonneg hs hm) (by norm_num [centsPerDollar]))
      (by norm_num)]
  rfl

theorem earningsOf_mono {d₁ d₂ : Int} (h : d₁ ≤ d₂) : earningsOf d₁ ≤ earningsOf d₂ := by
  unfold earningsOf
  apply Int.ediv_le_ediv (by norm_num)
  apply mul_le_mul_of_nonneg_right _ (by norm_num)
  exact Int.ediv_le_ediv (by norm_num [Minute]) h

/-- C11 as stated fails for a span above the largest `time.Duration`: from the epoch to
`10^19` nanoseconds later (2286-11-20) there are 166666666 whole minutes, worth 277777776
cents, but `Sub` saturates at `2^63 - 1` nanoseconds and the code returns 256204778. -/
theorem CalculateEarnings_saturates :
    (0 : Int) < 10000000000000000000 ∧
      (CalculateEarnings 0 10000000000000000000).2 = none ∧
      (CalculateEarnings 0 10000000000000000000).1 = 256204778 ∧
      earningsOf (10000000000000000000 - 0) = 277777776 ∧
      (CalculateEarnings 0 10000000000000000000).1 ≠ earningsOf (10000000000000000000 - 0) := by
  decide

/-- C11, amended: `CalculateEarnings(start, end)` returns an error exactly when `end` is
not after `start`; otherwise it returns `floor(m * 100 / 60)` with `m = floor(d / 1 minute)`,
`d` being `end - start` capped at the largest `time.Duration` (`2^63 - 1` ns), hence
`end - start` itself for every span up to that. A span under one minute yields 0, 59
seconds 0, 60 minutes 100 and 90 minutes 150. -/
theorem CalculateEarnings_value (start end_ : Time) :
    ((CalculateEarnings start end_).2 ≠ none ↔ ¬ start < end_) ∧
      (start < end_ →
        (CalculateEarnings start end_).1 = earningsOf (min (end_ - start) maxDuration)) ∧
      (start < end_ → end_ - start ≤ maxDuration →
        (CalculateEarnings start end_).1 = earningsOf (end_ - start)) ∧
      (start < end_ → end_ - start < Minute → (CalculateEarnings start end_).1 = 0) ∧
      (end_ - start = 59000000000 → (CalculateEarnings start end_).1 = 0) ∧
      (end_ - start = 60 * Minute → (CalculateEarnings start end_).1 = 100) ∧
      (end_ - start = 90 * Minute → (CalculateEarnings start end_).1 = 150) := by
  have hval : ∀ d : Int, 0 < d → d ≤ maxDuration → end_ - start = d →
      (CalculateEarnings start end_).1 = earningsOf d := by
    intro d hd hmax he
    have hlt : start < end_ := sub_pos.1 (he ▸ hd)
    rw [CalculateEarnings_eq hlt, he, min_eq_left hmax]
  refine ⟨?_, fun h => CalculateEarnings_eq h, ?_, ?_, ?_, ?_, ?_⟩
  · unfold CalculateEarnings
    by_cases h : After end_ start = true
    · have h' : start < end_ := by simpa [After] using h
      simp [h, h']
    · have h' : ¬ start < end_ := by simpa [After] using h
      simp [h, h']
  · intro h hmax
    rw [CalculateEarnings_eq h, min_eq_left hmax]
  · intro _ h
    exact CalculateEarnings_sub_minute h
  · intro h
    rw [hval 59000000000 (by norm_num) (by norm_num [maxDuration]) h]
    decide
  · intro h
    rw [hval (60 * Minute) (by norm_num [Minute]) (by norm_num [maxDuration, Minute]) h]
    decide
  · intro h
    rw [hval (90 * Minute) (by norm_num [Minute]) (by norm_num [maxDuration, Minute]) h]
    decide

/-- C12: for valid ranges, a span that is no longer earns no more, and earnings are never
negative. -/
theorem CalculateEarnings_monotone (s1 e1 s2 e2 : Time) (h1 : s1 < e1) (h2 : s2 < e2)
    (hle : e1 - s1 ≤ e2 - s2) :
    (CalculateEarnings s1 e1).1 ≤ (CalculateEarnings s2 e2).1 ∧
      0 ≤ (CalculateEarnings s1 e1).1 := by
  refine ⟨?_, CalculateEarnings_nonneg s1 e1⟩
  rw [CalculateEarnings_eq h1, CalculateEarnings_eq h2]
  exact earningsOf_mono (min_le_min hle (le_refl _))

/-- C12 at a concrete input: 59 seconds against 90 minutes. -/
theorem CalculateEarnings_monotone_witness :
    (CalculateEarnings 0 59000000000).1 ≤ (CalculateEarnings (60 * Minute) (150 * Minute)).1 ∧
      0 ≤ (CalculateEarnings 0 59000000000).1 :=
  CalculateEarnings_monotone 0 59000000000 (60 * Minute) (150 * Minute) (by decide)
    (by decide) (by decide)

/-! ## Further invariants of reachable stores -/

theorem reverseHit_identity (s e : Int) (r : Recording) :
    identity (reverseHit s e r) = identity r := by
  unfold reverseHit
  split_ifs
  · rfl
  · rfl

theorem reverseHit_of_not_intersects {s e : Int} {r : Recording}
    (h : ¬ intersects r s e) : reverseHit s e r = r := by
  unfold reverseHit
  rw [if_neg (fun hc => h hc.2)]

/-- Whatever relates each recording to itself and, when its index was collected and it
was non-fraud, to its reversal, relates the ledger to the ledger after the reversal
loop, position by position. -/
theorem reverseAll_forall₂ {Q : Recording → Recording → Prop} (u : User) (s e : Int)
    (h : ∀ k r, u.Recordings[k]? = some r →
      Q r (if k ∈ overlapOf u.Recordings s e ∧ r.IsFraud = false then markFraud r else r)) :
    List.Forall₂ Q u.Recordings (reverseAll u s e).2 := by
  rw [List.forall₂_iff_get]
  refine ⟨(reverseAll_length u s e).symm, fun i h1 h2 => ?_⟩
  have hg := reverseAll_getElem? u s e i
  rw [List.getElem?_eq_getElem h1, List.getElem?_eq_getElem h2] at hg
  simp only [Option.map_some', Option.some.injEq] at hg
  simp only [List.get_eq_getElem]
  rw [hg]
  exact h i _ (List.getElem?_eq_getElem h1)

/-- The recordings of a participant after a successful call: the ledger left by the
reversal loop with the new recording placed at the position found by the binary
search. -/
theorem ledgerOf_credit_participant (s : Store) (id : String)
    (start end_ : Time) (ps : List String)
    (hok : (creditRecording s id start end_ ps).err = none)
    {u : String} (hu : u ∈ ps) (hne : u ≠ "") :
    (ledgerOf (creditRecording s id start end_ ps).store u).Recordings =
      insertAt (reverseAll (ledgerOf s u) (UnixNano start) (UnixNano end_)).2
        (insertIndex (ledgerOf s u).Recordings (UnixNano start))
        ⟨id, UnixNano start, UnixNano end_, (userOut s id start end_ u).2,
          if (userOut s id start end_ u).2 then 0 else (CalculateEarnings start end_).1⟩ := by
  rw [ledgerOf_creditRecording, if_pos ⟨hok, hu, hne⟩]
  exact creditUser_recs _ id _ _ _

/-! ## Stored recordings (C15, C16, C18) -/

/-- C15 as stated fails in two ways. By saturation of `time.Time.Sub`: in `longStore`
(reachable by one credit) the recording of `user1` is non-fraud and spans `10^19`
nanoseconds, whose floored per-minute earnings are 277777776 cents, yet its `PaidAmount`
is 256204778. By the `int64` wrap of `UnixNano`: in `wrapStore` (one credit, from
2023-01-01 to 2300-01-01) the recording of `user1` is stored with `End` below `Start`. -/
theorem long_recording_paid_less :
    (Reachable longStore ∧
      (⟨"rec1", -5000000000000000000, 5000000000000000000, false, 256204778⟩ : Recording) ∈
        (ledgerOf longStore "user1").Recordings ∧
      earningsOf (5000000000000000000 - -5000000000000000000) = 277777776 ∧
      ¬ ∀ r ∈ (ledgerOf longStore "user1").Recordings, r.IsFraud = false →
        r.PaidAmount = earningsOf (r.End - r.Start)) ∧
    (Reachable wrapStore ∧
      (⟨"rec1", 1672531200000000000, -8032952073709551616, false, 242812800⟩ : Recording) ∈
        (ledgerOf wrapStore "user1").Recordings ∧
      ¬ ∀ r ∈ (ledgerOf wrapStore "user1").Recordings, r.Start < r.End) :=
  ⟨⟨Reachable.credit _ _ _ _ _ Reachable.init, by decide, by decide, by decide⟩,
    ⟨Reachable.credit _ _ _ _ _ Reachable.init, by decide, by decide⟩⟩

/-- C15, amended: in every reachable store a fraud recording has `PaidAmount` 0; and when
the store was reached with credited instants that all fit `int64` nanoseconds, each
stored recording has `End` after `Start` and, when it is not fraud, has `PaidAmount`
equal to `floor(floor(d / 1 minute) * 100 / 60)` with `d` its length `End - Start`
capped at the largest `time.Duration` (`2^63 - 1` ns), hence its length itself whenever
that fits. -/
theorem stored_recording_shape (s : Store) (hs : Reachable s) (u : String) (r : Recording)
    (hr : r ∈ (ledgerOf s u).Recordings) :
    (r.IsFraud = true → r.PaidAmount = 0) ∧
      (RangeReachable s →
        r.Start < r.End ∧
        (r.IsFraud = false → r.PaidAmount = earningsOf (min (r.End - r.Start) maxDuration)) ∧
        (r.IsFraud = false → r.End - r.Start ≤ maxDuration →
          r.PaidAmount = earningsOf (r.End - r.Start))) := by
  refine ⟨(hs.ledgerOK u).1.fraud_unpaid r hr, fun hrange => ?_⟩
  have hp := (hrange.ledgerProper u).proper r hr
  refine ⟨hp, ?_, ?_⟩
  · intro hl
    rw [(hrange.ledgerProper u).earned r hr hl, CalculateEarnings_eq hp]
  · intro hl hmax
    rw [(hrange.ledgerProper u).earned r hr hl, CalculateEarnings_eq hp, min_eq_left hmax]

/-- C15 (amended) at a concrete input: the recording of `user1` in `longStore`, reached
by one credit from -5 * 10^18 ns to 5 * 10^18 ns, both of which fit `int64`. -/
theorem stored_recording_shape_witness :
    (false = true → (256204778 : Int) = 0) ∧
      ((-5000000000000000000 : Int) < 5000000000000000000 ∧
        (false = false → (256204778 : Int) =
          earningsOf (min (5000000000000000000 - -5000000000000000000) maxDuration)) ∧
        (false = false → (5000000000000000000 : Int) - -5000000000000000000 ≤ maxDuration →
          (256204778 : Int) = earningsOf (5000000000000000000 - -5000000000000000000))) :=
  ⟨(stored_recording_shape longStore (Reachable.credit _ _ _ _ _ Reachable.init) "user1"
      ⟨"rec1", -5000000000000000000, 5000000000000000000, false, 256204778⟩ (by decide)).1,
    (stored_recording_shape longStore (Reachable.credit _ _ _ _ _ Reachable.init) "user1"
      ⟨"rec1", -5000000000000000000, 5000000000000000000, false, 256204778⟩ (by decide)).2
      (RangeReachable.credit _ _ _ _ _ (by decide) (by decide) RangeReachable.init)⟩

/-- C16: an operation (`creditRecording`, `Balance` or `Withdraw`) on a reachable store
leaves each user's recordings in place, position by position, with the same `ID`, `Start`
and `End`; a recording is unchanged or goes from non-fraud to fraud with `PaidAmount` 0,
one that was fraud remains fraud with `PaidAmount` 0; and the ledger afterwards is these
recordings, with at most one new recording inserted. -/
theorem recordings_only_turn_fraud (s s' : Store) (hs : Reachable s) (hstep : Step s s')
    (u : String) :
    ∃ olds, List.Forall₂
        (fun r r' => identity r' = identity r ∧ evolves r r' ∧
          (r.IsFraud = true → r'.IsFraud = true ∧ r'.PaidAmount = 0))
        (ledgerOf s u).Recordings olds ∧
      ((ledgerOf s' u).Recordings = olds ∨
        ∃ idx new, (ledgerOf s' u).Recordings = insertAt olds idx new) := by
  have hL := (hs.ledgerOK u).1
  have hsame : List.Forall₂
      (fun r r' => identity r' = identity r ∧ evolves r r' ∧
        (r.IsFraud = true → r'.IsFraud = true ∧ r'.PaidAmount = 0))
      (ledgerOf s u).Recordings (ledgerOf s u).Recordings := by
    rw [List.forall₂_same]
    intro r hr
    exact ⟨rfl, Or.inl rfl, fun hf => ⟨hf, hL.fraud_unpaid r hr hf⟩⟩
  cases hstep with
  | credit id start end_ ps =>
    by_cases hc : (creditRecording s id start end_ ps).err = none ∧ u ∈ ps ∧ u ≠ ""
    · obtain ⟨hok, hu, hne⟩ := hc
      refine ⟨_, reverseAll_forall₂ _ _ _ ?_, Or.inr ⟨_, _,
        ledgerOf_credit_participant s id start end_ ps hok hu hne⟩⟩
      intro k r hr
      have hmem := List.mem_iff_getElem?.2 ⟨k, hr⟩
      split_ifs with hc
      · refine ⟨rfl, Or.inr ⟨hc.2, rfl⟩, fun hf => ?_⟩
        rw [hc.2] at hf
        cases hf
      · exact ⟨rfl, Or.inl rfl, fun hf => ⟨hf, hL.fraud_unpaid r hmem hf⟩⟩
    · refine ⟨_, hsame, Or.inl ?_⟩
      rw [ledgerOf_creditRecording, if_neg hc]
  | balance k =>
    refine ⟨_, hsame, Or.inl ?_⟩
    rw [ledgerOf_Balance]
  | withdraw k amount =>
    refine ⟨_, hsame, Or.inl ?_⟩
    rw [ledgerOf_Withdraw]
    split_ifs with hc
    · rw [hc.2]
    · rfl

/-- C16 at a concrete input: the second call of `TestFraudOverlap`, seen from `user1`. -/
theorem recordings_only_turn_fraud_witness :
    ∃ olds, List.Forall₂
        (fun r r' => identity r' = identity r ∧ evolves r r' ∧
          (r.IsFraud = true → r'.IsFraud = true ∧ r'.PaidAmount = 0))
        (ledgerOf afterRec1 "user1").Recordings olds ∧
      ((ledgerOf (creditRecording afterRec1 "rec2" 1672569000000000000 1675510200000000000
          ["user1", "user3"]).store "user1").Recordings = olds ∨
        ∃ idx new, (ledgerOf (creditRecording afterRec1 "rec2" 1672569000000000000
          1675510200000000000 ["user1", "user3"]).store "user1").Recordings =
            insertAt olds idx new) :=
  recordings_only_turn_fraud afterRec1 _ (Reachable.credit _ _ _ _ _ Reachable.init)
    (Step.credit afterRec1 "rec2" 1672569000000000000 1675510200000000000 ["user1", "user3"])
    "user1"

/-- C18: in every reachable store each user's recordings are sorted by `Start`; and a
successful `creditRecording` leaves a participant's ledger as the old recordings in their
old order (identities unchanged) with the new recording inserted at the first index whose
`Start` is at least the new start: every recording before it starts earlier, every
recording after it starts no earlier. -/
theorem recordings_sorted_by_start (s : Store) (hs : Reachable s) :
    (∀ u, (ledgerOf s u).Recordings.Pairwise (fun a b => a.Start ≤ b.Start)) ∧
      ∀ (id : String) (start end_ : Time) (ps : List String),
        (creditRecording s id start end_ ps).err = none → ∀ u ∈ ps, u ≠ "" →
        ∃ idx olds new,
          olds.map identity = (ledgerOf s u).Recordings.map identity ∧
          idx ≤ olds.length ∧
          identity new = (id, UnixNano start, UnixNano end_) ∧
          (ledgerOf (creditRecording s id start end_ ps).store u).Recordings =
            insertAt olds idx new ∧
          (∀ r ∈ olds.take idx, r.Start < new.Start) ∧
          (∀ r ∈ olds.drop idx, new.Start ≤ r.Start) := by
  refine ⟨fun u => (hs.ledgerOK u).1.sorted, ?_⟩
  intro id start end_ ps hok u hu hne
  have hidx := insertIndex_spec (ledgerOf s u).Recordings (UnixNano start)
    (hs.ledgerOK u).1.sorted
  refine ⟨_, _, _, ?_, ?_, ?_, ledgerOf_credit_participant s id start end_ ps hok hu hne,
    ?_, ?_⟩
  · exact reverseAll_identity _ _ _
  · rw [reverseAll_length]
    exact insertIndex_le _ _
  · rfl
  · intro r hr
    obtain ⟨k, hk, hkr⟩ := mem_take_getElem? hr
    obtain ⟨a, hka, rfl⟩ := reverseAll_entry hkr
    rw [ite_markFraud_Start]
    exact hidx.1 k a hk hka
  · intro r hr
    obtain ⟨k, hk, hkr⟩ := mem_drop_getElem? hr
    obtain ⟨a, hka, rfl⟩ := reverseAll_entry hkr
    rw [ite_markFraud_Start]
    exact hidx.2 k a hk hka

/-- C18 at a concrete store: `user1` after minutes 0 to 100 and minutes 10 to 20. -/
theorem recordings_sorted_by_start_witness :
    (∀ u, (ledgerOf nestedStore u).Recordings.Pairwise (fun a b => a.Start ≤ b.Start)) ∧
      ∀ (id : String) (start end_ : Time) (ps : List String),
        (creditRecording nestedStore id start end_ ps).err = none → ∀ u ∈ ps, u ≠ "" →
        ∃ idx olds new,
          olds.map identity = (ledgerOf nestedStore u).Recordings.map identity ∧
          idx ≤ olds.length ∧
          identity new = (id, UnixNano start, UnixNano end_) ∧
          (ledgerOf (creditRecording nestedStore id start end_ ps).store u).Recordings =
            insertAt olds idx new ∧
          (∀ r ∈ olds.take idx, r.Start < new.Start) ∧
          (∀ r ∈ olds.drop idx, new.Start ≤ r.Start) :=
  recordings_sorted_by_start nestedStore
    (Reachable.credit _ _ _ _ _ (Reachable.credit _ _ _ _ _ Reachable.init))

/-! ## Balance bound and frame (C19, C20) -/

/-- C19: in every store reachable by `creditRecording`, `Balance` and `Withdraw` calls,
each user's balance lies between 0 and the sum of `PaidAmount` over that user's non-fraud
recordings. -/
theorem balance_within_live_sum (s : Store) (hs : Reachable s) (u : String) :
    0 ≤ (ledgerOf s u).Balance ∧
      (ledgerOf s u).Balance ≤ liveSum (ledgerOf s u).Recordings :=
  ⟨(hs.ledgerOK u).2, hs.balance_le u⟩

/-- C19 at a concrete store: `user1` credited an hour, 40 cents withdrawn. -/
theorem balance_within_live_sum_witness :
    0 ≤ (ledgerOf (Withdraw hourStore "user1" 40).store "user1").Balance ∧
      (ledgerOf (Withdraw hourStore "user1" 40).store "user1").Balance ≤
        liveSum (ledgerOf (Withdraw hourStore "user1" 40).store "user1").Recordings :=
  balance_within_live_sum (Withdraw hourStore "user1" 40).store
    (Reachable.withdraw _ _ _ (Reachable.credit _ _ _ _ _ Reachable.init)) "user1"

/-- C20, evaluated on the code. In `wrapStore` (reachable by one credit, from 2023-01-01
to 2300-01-01) the recording `rec1` of `user1` has `End` wrapped to
-8032952073709551616 and does not intersect 2022-06-01 to 2023-06-01; yet the overlap
scan of a credit of that interval collects its index, and after the call `rec1` is
fraud with `PaidAmount` 0 and the balance of `user1` is 0. In `farStore` (one credit,
from 2270-01-01 to 2854-01-01) the same happens for a credit of 1685-06-01 to
1686-01-01, which intersects neither the stored interval nor the span that was
credited. -/
theorem scan_collects_non_intersecting :
    (Reachable wrapStore ∧
      (ledgerOf wrapStore "user1") =
        ⟨242812800, [⟨"rec1", 1672531200000000000, -8032952073709551616, false, 242812800⟩]⟩ ∧
      ¬ intersects ⟨"rec1", 1672531200000000000, -8032952073709551616, false, 242812800⟩
        (UnixNano 1654041600000000000) (UnixNano 1685577600000000000) ∧
      overlapOf (ledgerOf wrapStore "user1").Recordings
        (UnixNano 1654041600000000000) (UnixNano 1685577600000000000) = [0] ∧
      (creditRecording wrapStore "rec2" 1654041600000000000 1685577600000000000
        ["user1"]).err = none ∧
      (⟨"rec1", 1672531200000000000, -8032952073709551616, true, 0⟩ : Recording) ∈
        (ledgerOf (creditRecording wrapStore "rec2" 1654041600000000000 1685577600000000000
          ["user1"]).store "user1").Recordings ∧
      (ledgerOf (creditRecording wrapStore "rec2" 1654041600000000000 1685577600000000000
        ["user1"]).store "user1").Balance = 0) ∧
    (Reachable farStore ∧
      (ledgerOf farStore "user1") =
        ⟨256204778, [⟨"rec1", -8979636873709551616, -8997088147419103232, false, 256204778⟩]⟩ ∧
      ¬ intersects ⟨"rec1", -8979636873709551616, -8997088147419103232, false, 256204778⟩
        (UnixNano (-8980588800000000000)) (UnixNano (-8962099200000000000)) ∧
      ¬ ((9467107200000000000 : Time) < -8962099200000000000 ∧
        (-8980588800000000000 : Time) < 27896400000000000000) ∧
      overlapOf (ledgerOf farStore "user1").Recordings
        (UnixNano (-8980588800000000000)) (UnixNano (-8962099200000000000)) = [0] ∧
      (creditRecording farStore "rec2" (-8980588800000000000) (-8962099200000000000)
        ["user1"]).err = none ∧
      (⟨"rec1", -8979636873709551616, -8997088147419103232, true, 0⟩ : Recording) ∈
        (ledgerOf (creditRecording farStore "rec2" (-8980588800000000000)
          (-8962099200000000000) ["user1"]).store "user1").Recordings ∧
      (ledgerOf (creditRecording farStore "rec2" (-8980588800000000000)
        (-8962099200000000000) ["user1"]).store "user1").Balance = 0) :=
  ⟨⟨Reachable.credit _ _ _ _ _ Reachable.init,
      by decide, by decide, by decide, by decide, by decide, by decide⟩,
    ⟨Reachable.credit _ _ _ _ _ Reachable.init,
      by decide, by decide, by decide, by decide, by decide, by decide, by decide⟩⟩

/-- What holds of C20. For every store: a successful `creditRecording` leaves the entry
of every user that is not a participant as it was (absent users stay absent), and the
old recordings of a participant keep their place and identity. When the store was
reached with instants that fit `int64` nanoseconds and so do `start` and `end`: each
old recording of a participant whose interval does not intersect `[start, end)` is
unchanged, and every index the overlap scan collects holds a recording that intersects
`[start, end)`. -/
theorem credit_frame_in_range (s : Store) (id : String) (start end_ : Time)
    (ps : List String) (hok : (creditRecording s id start end_ ps).err = none) :
    (∀ u, ¬ (u ∈ ps ∧ u ≠ "") →
        (creditRecording s id start end_ ps).store.users u = s.users u) ∧
      (∀ u ∈ ps, u ≠ "" → ∃ idx olds new,
        (ledgerOf (creditRecording s id start end_ ps).store u).Recordings =
          insertAt olds idx new ∧
        olds.map identity = (ledgerOf s u).Recordings.map identity) ∧
      (RangeReachable s → inRange start → inRange end_ →
        (∀ u ∈ ps, u ≠ "" → ∃ idx olds new,
          (ledgerOf (creditRecording s id start end_ ps).store u).Recordings =
            insertAt olds idx new ∧
          List.Forall₂
            (fun r r' => identity r' = identity r ∧
              (¬ intersects r (UnixNano start) (UnixNano end_) → r' = r))
            (ledgerOf s u).Recordings olds) ∧
        (∀ u k, k ∈ overlapOf (ledgerOf s u).Recordings (UnixNano start) (UnixNano end_) →
          ∃ r, (ledgerOf s u).Recordings[k]? = some r ∧
            intersects r (UnixNano start) (UnixNano end_))) := by
  have hse := ((creditRecording_err_none_iff s id start end_ ps).1 hok).2.1
  refine ⟨?_, ?_, ?_⟩
  · intro u hu
    rw [(creditRecording_ok s id start end_ ps hok).1 u, if_neg hu]
  · intro u hu hne
    exact ⟨_, _, _, ledgerOf_credit_participant s id start end_ ps hok hu hne,
      reverseAll_identity _ _ _⟩
  · intro hs hstart hend
    have hse' : UnixNano start < UnixNano end_ := by
      rw [UnixNano_of_inRange hstart, UnixNano_of_inRange hend]
      exact hse
    have hsound : ∀ u k,
        k ∈ overlapOf (ledgerOf s u).Recordings (UnixNano start) (UnixNano end_) →
        ∃ r, (ledgerOf s u).Recordings[k]? = some r ∧
          intersects r (UnixNano start) (UnixNano end_) := fun u k hk =>
      overlapOf_sound (hs.reachable.ledgerOK u).1 (hs.ledgerProper u).proper hse' hk
    refine ⟨?_, hsound⟩
    intro u hu hne
    refine ⟨_, _, _, ledgerOf_credit_participant s id start end_ ps hok hu hne,
      reverseAll_forall₂ _ _ _ ?_⟩
    intro k r hr
    split_ifs with hc
    · refine ⟨rfl, fun hni => ?_⟩
      obtain ⟨r', hr', hi⟩ := hsound u k hc.1
      rw [hr] at hr'
      cases hr'
      exact absurd hi hni
    · exact ⟨rfl, fun _ => rfl⟩

/-- The frame facts at the second call of `TestFraudOverlap`. -/
theorem credit_frame_in_range_witness :
    (∀ u, ¬ (u ∈ ["user1", "user3"] ∧ u ≠ "") →
        (creditRecording afterRec1 "rec2" 1672569000000000000 1675510200000000000
          ["user1", "user3"]).store.users u = afterRec1.users u) ∧
      (∀ u k, k ∈ overlapOf (ledgerOf afterRec1 u).Recordings
          (UnixNano 1672569000000000000) (UnixNano 1675510200000000000) →
        ∃ r, (ledgerOf afterRec1 u).Recordings[k]? = some r ∧
          intersects r (UnixNano 1672569000000000000) (UnixNano 1675510200000000000)) :=
  ⟨(credit_frame_in_range afterRec1 "rec2" 1672569000000000000 1675510200000000000
      ["user1", "user3"] (by decide)).1,
    ((credit_frame_in_range afterRec1 "rec2" 1672569000000000000 1675510200000000000
      ["user1", "user3"] (by decide)).2.2
      (RangeReachable.credit _ _ _ _ _ (by decide) (by decide) RangeReachable.init)
      (by decide) (by decide)).2⟩

/-! ## Money strings: parsing lemmas -/

theorem digitVal_of_isDigit {c : Char} (h : isDigit c) :
    digitVal c = some (c.toNat - '0'.toNat) :=
  if_pos h

theorem digitVal_of_not_isDigit {c : Char} (h : ¬ isDigit c) : digitVal c = none :=
  if_neg h

theorem isDigit_ne_dot {c : Char} (h : isDigit c) : c ≠ '.' := by
  rintro rfl
  exact absurd h (by decide)

theorem isDigit_ne_plus {c : Char} (h : isDigit c) : c ≠ '+' := by
  rintro rfl
  exact absurd h (by decide)

theorem isDigit_ne_minus {c : Char} (h : isDigit c) : c ≠ '-' := by
  rintro rfl
  exact absurd h (by decide)

theorem parseDigits_of_digits :
    ∀ (l : List Char) (n : Nat), (∀ c ∈ l, isDigit c) →
      parseDigits l n = some (l.foldl (fun n c => n * 10 + (c.toNat - '0'.toNat)) n)
  | [], n, _ => rfl
  | c :: cs, n, h => by
    unfold parseDigits
    rw [digitVal_of_isDigit (h c (List.mem_cons_self _ _))]
    exact parseDigits_of_digits cs _ (fun x hx => h x (List.mem_cons_of_mem _ hx))

theorem parseDigits_of_bad :
    ∀ (l : List Char) (n : Nat), (∃ c ∈ l, ¬ isDigit c) → parseDigits l n = none
  | [], n, h => by
    obtain ⟨c, hc, _⟩ := h
    cases hc
  | c :: cs, n, h => by
    unfold parseDigits
    by_cases hd : isDigit c
    · rw [digitVal_of_isDigit hd]
      apply parseDigits_of_bad cs
      obtain ⟨x, hx, hbad⟩ := h
      rcases List.mem_cons.1 hx with rfl | hx
      · exact absurd hd hbad
      · exact ⟨x, hx, hbad⟩
    · rw [digitVal_of_not_isDigit hd]

/-- What `ParseInt` returns on a non-empty string of digits below `2^63`. -/
theorem ParseInt_of_digits {l : List Char} (hne : l ≠ []) (h : ∀ c ∈ l, isDigit c)
    (hfit : natVal l < 9223372036854775808) : ParseInt l = some (natVal l : Int) := by
  cases l with
  | nil => exact absurd rfl hne
  | cons c cs =>
    have hc := h c (List.mem_cons_self _ _)
    have hsign : ¬ (c = '+' ∨ c = '-') := by
      rintro (h1 | h1)
      · exact isDigit_ne_plus hc h1
      · exact isDigit_ne_minus hc h1
    have hu : ParseUint (c :: cs) = some (natVal (c :: cs)) := by
      unfold ParseUint
      rw [if_neg (List.cons_ne_nil c cs), parseDigits_of_digits _ _ h]
      rfl
    unfold ParseInt
    simp only [hsign, if_false, hu]
    rw [if_neg (isDigit_ne_minus hc), if_neg (not_le.2 hfit)]

/-- A part with a character that is neither a digit nor a leading sign is rejected. -/
theorem ParseInt_of_badPart {l : List Char} (h : badPart l) : ParseInt l = none := by
  obtain ⟨i, ch, hi, hnd, hns⟩ := h
  cases l with
  | nil => simp at hi
  | cons c cs =>
    have hu : ParseUint (if c = '+' ∨ c = '-' then cs else c :: cs) = none := by
      by_cases hsign : c = '+' ∨ c = '-'
      · rw [if_pos hsign]
        cases i with
        | zero =>
          simp only [List.getElem?_cons_zero, Option.some.injEq] at hi
          subst hi
          exact absurd ⟨rfl, hsign⟩ hns
        | succ j =>
          simp only [List.getElem?_cons_succ] at hi
          unfold ParseUint
          split_ifs
          · rfl
          · exact parseDigits_of_bad cs 0 ⟨ch, List.mem_iff_getElem?.2 ⟨j, hi⟩, hnd⟩
      · rw [if_neg hsign]
        unfold ParseUint
        rw [if_neg (List.cons_ne_nil c cs)]
        exact parseDigits_of_bad _ 0 ⟨ch, List.mem_iff_getElem?.2 ⟨i, hi⟩, hnd⟩
    unfold ParseInt
    simp only [hu]

theorem splitDot_ne_nil : ∀ l : List Char, splitDot l ≠ []
  | [] => by simp [splitDot]
  | c :: cs => by
    unfold splitDot
    split_ifs
    · simp
    · cases h : splitDot cs <;> simp

theorem splitDot_of_no_dot : ∀ l : List Char, '.' ∉ l → splitDot l = [l]
  | [], _ => rfl
  | c :: cs, h => by
    have hc : c ≠ '.' := fun e => h (e ▸ List.mem_cons_self _ _)
    have ih := splitDot_of_no_dot cs (fun hm => h (List.mem_cons_of_mem _ hm))
    unfold splitDot
    rw [if_neg hc, ih]

theorem splitDot_append_dot :
    ∀ (l f : List Char), '.' ∉ l → splitDot (l ++ '.' :: f) = l :: splitDot f
  | [], f, _ => by simp [splitDot]
  | c :: cs, f, h => by
    have hc : c ≠ '.' := fun e => h (e ▸ List.mem_cons_self _ _)
    have ih := splitDot_append_dot cs f (fun hm => h (List.mem_cons_of_mem _ hm))
    rw [List.cons_append]
    simp only [splitDot, hc, if_false, ih]

theorem length_splitDot : ∀ l : List Char, (splitDot l).length = l.count '.' + 1
  | [] => rfl
  | c :: cs => by
    have ih := length_splitDot cs
    unfold splitDot
    by_cases hc : c = '.'
    · subst hc
      simp [ih]
    · rw [if_neg hc]
      have hcount : (c :: cs).count '.' = cs.count '.' := by
        rw [List.count_cons]
        simp [hc]
      rw [hcount, ← ih]
      cases h : splitDot cs with
      | nil => exact absurd h (splitDot_ne_nil cs)
      | cons p ps => rfl

theorem String_mk_ne_empty {l : List Char} (h : l ≠ []) : String.mk l ≠ "" := by
  intro he
  exact h (congrArg String.data he)

theorem normFraction_eq (f : List Char) :
    normFraction f = if (f.take 2).length = 1 then f.take 2 ++ ['0'] else f.take 2 := by
  have hcut : (if 2 < f.length then f.take 2 else f) = f.take 2 := by
    split_ifs with h
    · rfl
    · exact (List.take_of_length_le (not_lt.1 h)).symm
  unfold normFraction
  simp only [hcut]

theorem natVal_digit_le {c : Char} (h : isDigit c) : c.toNat - '0'.toNat ≤ 9 := by
  have h2 : c.val ≤ '9'.val := h.2
  have h3 : c.toNat ≤ '9'.toNat := h2
  have h4 : '9'.toNat = 57 := by decide
  have h5 : '0'.toNat = 48 := by decide
  omega

/-- The normalised fraction of a non-empty digit string parses to its cents, below 100. -/
theorem ParseInt_normFraction {f : List Char} (hne : f ≠ []) (h : ∀ c ∈ f, isDigit c) :
    ParseInt (normFraction f) = some (centsOf f : Int) ∧ centsOf f ≤ 99 := by
  have hz : isDigit '0' := by decide
  have key : ∀ l : List Char, l.length = 2 → (∀ c ∈ l, isDigit c) →
      ParseInt l = some (natVal l : Int) ∧ natVal l ≤ 99 := by
    intro l hl hd
    match l, hl, hd with
    | [a, b], _, hd =>
      have ha := natVal_digit_le (hd a (by simp))
      have hb := natVal_digit_le (hd b (by simp))
      have hv : natVal [a, b] ≤ 99 := by
        simp only [natVal, List.foldl_cons, List.foldl_nil]
        omega
      exact ⟨ParseInt_of_digits (by simp) hd (by omega), hv⟩
  rw [normFraction_eq]
  unfold centsOf
  match f, hne, h with
  | [a], _, h =>
    simp only [List.take, List.length_singleton, if_true]
    exact key _ rfl (by
      intro c hc
      simp only [List.singleton_append, List.mem_cons, List.not_mem_nil, or_false] at hc
      rcases hc with rfl | rfl
      · exact h _ (by simp)
      · exact hz)
  | a :: b :: rest, _, h =>
    have hlen : ((a :: b :: rest).take 2).length ≠ 1 := by simp
    simp only [hlen, if_false]
    exact key _ (by simp) (fun c hc => h c (List.mem_of_mem_take hc))

theorem parse_no_dot {l : List Char} (hne : l ≠ []) (hdot : '.' ∉ l) :
    parsemoneytocents (String.mk l) =
      match ParseInt l with
      | none => (0, some "invalid dollars")
      | some d => (wrap64 (wrap64 (d * centsPerDollar) + 0), none) := by
  unfold parsemoneytocents
  rw [if_neg (String_mk_ne_empty hne)]
  simp only [splitDot_of_no_dot l hdot, List.length_singleton, List.headD_cons, hne, if_false]
  simp only [Nat.lt_irrefl, OfNat.one_ne_ofNat, if_false, Nat.reduceLT, Nat.reduceEqDiff]

theorem parse_one_dot {i f : List Char} (hi : '.' ∉ i) (hf : '.' ∉ f) :
    parsemoneytocents (String.mk (i ++ '.' :: f)) =
      match ParseInt (if i = [] then ['0'] else i) with
      | none => (0, some "invalid dollars")
      | some d =>
        if f = [] then (wrap64 (d * centsPerDollar), none)
        else
          match ParseInt (normFraction f) with
          | none => (0, some "invalid cents")
          | some c => (wrap64 (wrap64 (d * centsPerDollar) + c), none) := by
  unfold parsemoneytocents
  rw [if_neg (String_mk_ne_empty (by simp))]
  simp only [splitDot_append_dot i f hi, splitDot_of_no_dot f hf, List.length_cons,
    List.length_singleton, List.headD_cons, List.getD_cons_succ, List.getD_cons_zero]
  simp only [List.length_nil, Nat.zero_add, Nat.reduceAdd, Nat.lt_irrefl, if_false, if_true]

theorem parse_many_dots (s : String) (h : 1 < s.data.count '.') :
    parsemoneytocents s = (0, some "invalid amount format") := by
  have hne : s ≠ "" := by
    rintro rfl
    simp at h
  unfold parsemoneytocents
  rw [if_neg hne]
  simp only [length_splitDot]
  rw [if_pos (by omega)]

/-! ## Money strings: the claims (C13, C14) -/

theorem no_dot_of_digits {l : List Char} (h : ∀ c ∈ l, isDigit c) : '.' ∉ l :=
  fun hm => isDigit_ne_dot (h _ hm) rfl

theorem ParseInt_dollars {d : List Char} (h : ∀ c ∈ d, isDigit c)
    (hfit : 100 * (natVal d : Int) ≤ 9223372036854775807) :
    ParseInt (if d = [] then ['0'] else d) = some (natVal d : Int) := by
  by_cases hd : d = []
  · subst hd
    decide
  · rw [if_neg hd]
    exact ParseInt_of_digits hd h (by omega)

/-- C13 as stated fails at the top of the range: with 92233720368547758 dollars the
product by 100 still fits `int64`, but adding 8 cents overflows and the value returned
is `-2^63` instead of 9223372036854775808. -/
theorem parse_money_wraps :
    (∀ c ∈ "92233720368547758".data, isDigit c) ∧ (∀ c ∈ "08".data, isDigit c) ∧
      100 * (natVal "92233720368547758".data : Int) ≤ 9223372036854775807 ∧
      100 * (natVal "92233720368547758".data : Int) + (centsOf "08".data : Int) =
        9223372036854775808 ∧
      parsemoneytocents "92233720368547758.08" = (-9223372036854775808, none) := by
  decide

/-- C13, amended: for digit strings `D` and `F`, `parsemoneytocents` succeeds on `D` and
on `D.` (for non-empty `D` with `100 * value(D)` within `int64`) with `100 * value(D)`,
and on `D.F` and `.F` (for non-empty `F` with `100 * value(D) + c` within `int64`) with
`100 * value(D) + c`, where `value` of a missing integer part is 0 and `c` is the value
of the first two digits of `F`, a single digit being followed by a `0` and digits past
the second dropped. The strings 1., .50, 2.5, 3.25 and 0.01 give 100, 50, 250, 325, 1. -/
theorem parse_money_value (D F : List Char) (hD : ∀ c ∈ D, isDigit c)
    (hF : ∀ c ∈ F, isDigit c) :
    (D ≠ [] → 100 * (natVal D : Int) ≤ 9223372036854775807 →
        parsemoneytocents (String.mk D) = (100 * (natVal D : Int), none) ∧
        parsemoneytocents (String.mk (D ++ ['.'])) = (100 * (natVal D : Int), none)) ∧
      (F ≠ [] → 100 * (natVal D : Int) + (centsOf F : Int) ≤ 9223372036854775807 →
        parsemoneytocents (String.mk (D ++ '.' :: F)) =
          (100 * (natVal D : Int) + (centsOf F : Int), none)) ∧
      parsemoneytocents "1." = (100, none) ∧
      parsemoneytocents ".50" = (50, none) ∧
      parsemoneytocents "2.5" = (250, none) ∧
      parsemoneytocents "3.25" = (325, none) ∧
      parsemoneytocents "0.01" = (1, none) := by
  have hdD := no_dot_of_digits hD
  have hdF := no_dot_of_digits hF
  refine ⟨?_, ?_, by decide, by decide, by decide, by decide, by decide⟩
  · intro hne hfit
    have hP := ParseInt_of_digits hne hD (by omega)
    have hw : wrap64 ((natVal D : Int) * centsPerDollar) = 100 * (natVal D : Int) := by
      rw [wrap64_of_fits] <;> unfold centsPerDollar <;> omega
    constructor
    · rw [parse_no_dot hne hdD, hP]
      simp only [hw, add_zero]
      rw [wrap64_of_fits (by omega) hfit]
    · rw [parse_one_dot hdD (List.not_mem_nil _), if_neg hne, hP]
      simp only [if_true, hw]
  · intro hne hfit
    obtain ⟨hc, hc99⟩ := ParseInt_normFraction hne hF
    have hfit' : 100 * (natVal D : Int) ≤ 9223372036854775807 := by omega
    have hw : wrap64 ((natVal D : Int) * centsPerDollar) = 100 * (natVal D : Int) := by
      rw [wrap64_of_fits] <;> unfold centsPerDollar <;> omega
    rw [parse_one_dot hdD hdF, ParseInt_dollars hD hfit']
    simp only [hne, if_false, hc, hw]
    rw [wrap64_of_fits (by omega) hfit]

/-- C13 (amended) at a concrete input: the digit strings 3 and 25. -/
theorem parse_money_value_witness :
    ("3".data ≠ [] → 100 * (natVal "3".data : Int) ≤ 9223372036854775807 →
        parsemoneytocents (String.mk "3".data) = (100 * (natVal "3".data : Int), none) ∧
        parsemoneytocents (String.mk ("3".data ++ ['.'])) =
          (100 * (natVal "3".data : Int), none)) ∧
      ("25".data ≠ [] →
        100 * (natVal "3".data : Int) + (centsOf "25".data : Int) ≤ 9223372036854775807 →
        parsemoneytocents (String.mk ("3".data ++ '.' :: "25".data)) =
          (100 * (natVal "3".data : Int) + (centsOf "25".data : Int), none)) ∧
      parsemoneytocents "1." = (100, none) ∧
      parsemoneytocents ".50" = (50, none) ∧
      parsemoneytocents "2.5" = (250, none) ∧
      parsemoneytocents "3.25" = (325, none) ∧
      parsemoneytocents "0.01" = (1, none) :=
  parse_money_value "3".data "25".data (by decide) (by decide)

theorem badPart_append {l : List Char} (h : badPart l) (m : List Char) :
    badPart (l ++ m) := by
  obtain ⟨i, c, hi, h1, h2⟩ := h
  refine ⟨i, c, ?_, h1, h2⟩
  have hlt := (List.getElem?_eq_some.1 hi).1
  rw [List.getElem?_append, if_pos hlt]
  exact hi

theorem badPart_ne_nil {l : List Char} (h : badPart l) : l ≠ [] := by
  rintro rfl
  obtain ⟨i, c, hi, _, _⟩ := h
  simp at hi

/-- C14 as stated fails: the fractional part of 1.23abc holds the non-digit `a`, yet the
string is accepted as 123 cents, the fraction being cut to two characters before it is
examined; and the integer part of -5 holds the non-digit `-`, yet the string is accepted
as -500 cents, `strconv.ParseInt` reading a leading sign. -/
theorem parse_money_accepts_non_digits :
    'a' ∈ "23abc".data ∧ ¬ isDigit 'a' ∧ parsemoneytocents "1.23abc" = (123, none) ∧
      '-' ∈ "-5".data ∧ ¬ isDigit '-' ∧ parsemoneytocents "-5" = (-500, none) := by
  decide

/-- C14, amended: `parsemoneytocents` returns an error for the empty string, for every
string with more than one decimal point, and for every string whose integer part, or
whose fractional part within its first two characters, holds a character that is not a
decimal digit, a `+` or `-` opening the part aside. The strings 1.2.3 and abc are
rejected. -/
theorem parse_money_rejects :
    (parsemoneytocents "").2 ≠ none ∧
      (∀ s : String, 1 < s.data.count '.' → (parsemoneytocents s).2 ≠ none) ∧
      (∀ I : List Char, '.' ∉ I → badPart I →
        (parsemoneytocents (String.mk I)).2 ≠ none) ∧
      (∀ I F : List Char, '.' ∉ I → '.' ∉ F → badPart I →
        (parsemoneytocents (String.mk (I ++ '.' :: F))).2 ≠ none) ∧
      (∀ I F : List Char, '.' ∉ I → '.' ∉ F → badPart (F.take 2) →
        (parsemoneytocents (String.mk (I ++ '.' :: F))).2 ≠ none) ∧
      (parsemoneytocents "1.2.3").2 ≠ none ∧
      (parsemoneytocents "abc").2 ≠ none := by
  refine ⟨by decide, ?_, ?_, ?_, ?_, by decide, by decide⟩
  · intro s h
    rw [parse_many_dots s h]
    simp
  · intro I hI hbad
    rw [parse_no_dot (badPart_ne_nil hbad) hI, ParseInt_of_badPart hbad]
    simp
  · intro I F hI hF hbad
    rw [parse_one_dot hI hF, if_neg (badPart_ne_nil hbad), ParseInt_of_badPart hbad]
    simp
  · intro I F hI hF hbad
    have hne : F ≠ [] := by
      rintro rfl
      exact badPart_ne_nil hbad rfl
    have hnorm : ParseInt (normFraction F) = none := by
      apply ParseInt_of_badPart
      rw [normFraction_eq]
      split_ifs
      · exact badPart_append hbad _
      · exact hbad
    rw [parse_one_dot hI hF]
    cases hP : ParseInt (if I = [] then ['0'] else I) with
    | none => simp
    | some d => simp [hne, hnorm]

/-! ## Lock order (towards C17)

The embedding runs one operation at a time, so the absence of deadlock between
concurrent calls is not expressed in it.  What can be said sequentially is the order of
acquisition: the identifiers are locked in strictly ascending order, each non-empty
participant once, and released in the reverse order. -/

theorem lockOrder_strict (participant : List String) :
    (lockOrder participant).Pairwise (fun a b => strLE a b ∧ a ≠ b) ∧
      (∀ k, k ∈ lockOrder participant ↔ k ∈ participant ∧ k ≠ "") ∧
      unlockOrder participant = (lockOrder participant).reverse := by
  refine ⟨?_, ?_, rfl⟩
  · exact List.Pairwise.and (List.sorted_insertionSort strLE _)
      (nodup_sortStrings (nodup_uniqueParticipants participant))
  · intro k
    unfold lockOrder
    rw [mem_sortStrings, mem_uniqueParticipants]

end Liva
